import Mathlib

/-!
# protols completion engine: a shallow embedding of `pkg/lsp/completion.go`

Go strings are modelled as lists of characters (`Str`), Go's multi-value
`(value, error)` returns and run-time panics as an `Outcome`, and the
protoreflect descriptor graph as a finite tree.
-/

set_option autoImplicit false

namespace Protols

/-- Go `string`, as the list of its characters. -/
abbrev Str := List Char

/-- Go `error`, represented by its message. -/
abbrev Error := Str

/-- Result of a Go call: a returned value with a nil error, `return nil, err`,
or a run-time panic (nil dereference, index or slice out of range). -/
inductive Outcome (α : Type) where
  | ret (val : α)
  | err (e : Error)
  | panic
  deriving Repr, DecidableEq

namespace Outcome

/-- Sequencing of Go calls: an error or a panic of the first call ends the function. -/
def bind {α β : Type} (o : Outcome α) (f : α → Outcome β) : Outcome β :=
  match o with
  | ret v => f v
  | err e => err e
  | panic => panic

end Outcome

/-! ## The functions of Go's `strings` package used by the engine -/

namespace strings

/-- Go `strings.HasPrefix(s, p)`. -/
def HasPrefix : Str → Str → Bool
  | _, [] => true
  | [], _ :: _ => false
  | c :: s, d :: p => c == d && HasPrefix s p

/-- Go `strings.HasSuffix(s, p)`. -/
def HasSuffix (s p : Str) : Bool :=
  HasPrefix s.reverse p.reverse

/-- Go `strings.Contains(s, substr)`: some position of `s` starts with `substr`. -/
def Contains : Str → Str → Bool
  | [], sub => HasPrefix [] sub
  | c :: s, sub => HasPrefix (c :: s) sub || Contains s sub

/-- Go `strings.LastIndex(s, substr)`: the index of the last occurrence of
`substr` in `s`, or `-1`. -/
def LastIndex : Str → Str → Int
  | [], sub => if HasPrefix [] sub then 0 else -1
  | c :: s, sub =>
    if 0 ≤ LastIndex s sub then LastIndex s sub + 1
    else if HasPrefix (c :: s) sub then 0 else -1

/-- Go `unicode.IsSpace`, the white space that `strings.TrimSpace` removes. -/
def isSpace (c : Char) : Bool :=
  c.toNat = 0x09 || c.toNat = 0x0A || c.toNat = 0x0B || c.toNat = 0x0C || c.toNat = 0x0D ||
  c.toNat = 0x20 || c.toNat = 0x85 || c.toNat = 0xA0 || c.toNat = 0x1680 ||
  (0x2000 ≤ c.toNat && c.toNat ≤ 0x200A) || c.toNat = 0x2028 || c.toNat = 0x2029 ||
  c.toNat = 0x202F || c.toNat = 0x205F || c.toNat = 0x3000

/-- Removal of the trailing characters that satisfy `p`. -/
def trimRightFunc (p : Char → Bool) (s : Str) : Str :=
  (s.reverse.dropWhile p).reverse

/-- Go `strings.TrimSpace(s)`. -/
def TrimSpace (s : Str) : Str :=
  trimRightFunc isSpace (s.dropWhile isSpace)

/-- Go `strings.Trim(s, cutset)`: leading and trailing characters of `cutset` removed. -/
def Trim (s cutset : Str) : Str :=
  trimRightFunc (fun c => cutset.contains c) (s.dropWhile (fun c => cutset.contains c))

/-- Go `strings.TrimPrefix(s, p)`. -/
def TrimPrefix (s p : Str) : Str :=
  if HasPrefix s p then s.drop p.length else s

/-- Go `strings.Split(s, sep)` for a one-character separator (the engine only
splits on `"."`): the pieces between the separators, at least one piece. -/
def Split : Str → Char → List Str
  | [], _ => [[]]
  | c :: s, sep =>
    if c = sep then [] :: Split s sep
    else
      match Split s sep with
      | [] => [[c]]
      | p :: ps => (c :: p) :: ps

/-- Go slice expression `s[lo:hi]` on a string; `none` is the out-of-range panic. -/
def slice (s : Str) (lo hi : Int) : Option Str :=
  if 0 ≤ lo ∧ lo ≤ hi ∧ hi ≤ (s.length : Int) then
    some ((s.drop lo.toNat).take (hi.toNat - lo.toNat))
  else none

/-- Go slice expression `s[lo:]`. -/
def sliceFrom (s : Str) (lo : Int) : Option Str :=
  slice s lo s.length

end strings

/-! ## protoreflect descriptors -/

/-- The kinds of protoreflect whose fields carry no message descriptor. -/
inductive ScalarKind where
  | BoolKind | EnumKind | Int32Kind | Sint32Kind | Uint32Kind | Int64Kind
  | Sint64Kind | Uint64Kind | Sfixed32Kind | Fixed32Kind | FloatKind
  | Sfixed64Kind | Fixed64Kind | DoubleKind | StringKind | BytesKind
  deriving Repr, DecidableEq

/-- Go `protoreflect.Kind`. -/
inductive Kind where
  | scalar (k : ScalarKind)
  | MessageKind
  | GroupKind
  deriving Repr, DecidableEq

/-- Go `protoreflect.Cardinality`. -/
inductive Cardinality where
  | Optional | Required | Repeated
  deriving Repr, DecidableEq

/-- The declared type of a field: `Kind()` together with `Message()`, which is
non-nil exactly for message and group kinds. -/
inductive FieldType (M : Type) where
  | scalar (k : ScalarKind)
  | message (m : M)
  | group (m : M)

/-- What `ContainingMessage()` of a field is: for a regular field the message
that declares it (the back edge of the descriptor graph, kept by name), for an
extension field (`IsExtension()`) the extended message. -/
inductive Containing (M : Type) where
  | declaredIn (parentFullName : Str)
  | extendee (m : M)

/-- Go `protoreflect.FieldDescriptor`, over the type `M` of message descriptors. -/
structure FieldDescriptorOf (M : Type) where
  name : Str
  fullName : Str
  type : FieldType M
  cardinality : Cardinality
  containing : Containing M
  deprecated : Bool
  sourcePath : List Int
  leadingComments : Str

/-- Go `protoreflect.MessageDescriptor`: a declared message with its fields and
the extensions declared in its scope, or a synthesized map entry with its key
and value fields. -/
inductive MessageDescriptor where
  | message (fullName : Str) (fields extensions : List (FieldDescriptorOf MessageDescriptor))
  | mapEntry (fullName : Str) (key value : FieldDescriptorOf MessageDescriptor)

/-- Go `protoreflect.FieldDescriptor` and `protoreflect.ExtensionDescriptor`. -/
abbrev FieldDescriptor := FieldDescriptorOf MessageDescriptor

namespace MessageDescriptor

/-- Go `md.FullName()`. -/
def FullName : MessageDescriptor → Str
  | message n _ _ => n
  | mapEntry n _ _ => n

/-- Go `md.IsMapEntry()`. -/
def IsMapEntry : MessageDescriptor → Bool
  | message _ _ _ => false
  | mapEntry _ _ _ => true

/-- Go `md.Fields()`, in declaration order. -/
def Fields : MessageDescriptor → List FieldDescriptor
  | message _ fs _ => fs
  | mapEntry _ k v => [k, v]

/-- Go `md.Extensions()`, in declaration order. -/
def Extensions : MessageDescriptor → List FieldDescriptor
  | message _ _ xs => xs
  | mapEntry _ _ _ => []

end MessageDescriptor

/-- Go `FieldDescriptors.ByName(name)` and `ExtensionDescriptors.ByName(name)`. -/
def ByName (fds : List FieldDescriptor) (name : Str) : Option FieldDescriptor :=
  fds.find? (fun fd => decide (fd.name = name))

namespace FieldDescriptorOf

/-- Go `fd.Kind()`. -/
def Kind (fd : FieldDescriptor) : Kind :=
  match fd.type with
  | .scalar k => .scalar k
  | .message _ => .MessageKind
  | .group _ => .GroupKind

/-- Go `fd.Message()`; `none` is nil. -/
def Message (fd : FieldDescriptor) : Option MessageDescriptor :=
  match fd.type with
  | .scalar _ => none
  | .message m => some m
  | .group m => some m

/-- Go `fd.IsExtension()`. -/
def IsExtension (fd : FieldDescriptor) : Bool :=
  match fd.containing with
  | .declaredIn _ => false
  | .extendee _ => true

/-- Go `fd.ContainingMessage().FullName()`. -/
def ContainingMessageFullName (fd : FieldDescriptor) : Str :=
  match fd.containing with
  | .declaredIn n => n
  | .extendee m => m.FullName

/-- Go `fd.MapKey()`; `none` is nil. -/
def MapKey (fd : FieldDescriptor) : Option FieldDescriptor :=
  match fd.type with
  | .message (.mapEntry _ k _) => some k
  | _ => none

/-- Go `fd.MapValue()`; `none` is nil. -/
def MapValue (fd : FieldDescriptor) : Option FieldDescriptor :=
  match fd.type with
  | .message (.mapEntry _ _ v) => some v
  | _ => none

end FieldDescriptorOf

/-- Go `protoreflect.Kind.String()`. -/
def Kind.String : Kind → Str
  | .scalar .BoolKind => "bool".toList
  | .scalar .EnumKind => "enum".toList
  | .scalar .Int32Kind => "int32".toList
  | .scalar .Sint32Kind => "sint32".toList
  | .scalar .Uint32Kind => "uint32".toList
  | .scalar .Int64Kind => "int64".toList
  | .scalar .Sint64Kind => "sint64".toList
  | .scalar .Uint64Kind => "uint64".toList
  | .scalar .Sfixed32Kind => "sfixed32".toList
  | .scalar .Fixed32Kind => "fixed32".toList
  | .scalar .FloatKind => "float".toList
  | .scalar .Sfixed64Kind => "sfixed64".toList
  | .scalar .Fixed64Kind => "fixed64".toList
  | .scalar .DoubleKind => "double".toList
  | .scalar .StringKind => "string".toList
  | .scalar .BytesKind => "bytes".toList
  | .MessageKind => "message".toList
  | .GroupKind => "group".toList

/-! Go `protoreflect.FullName` -/
namespace FullName

/-- Go `n.Parent()`: the text before the last `.`, empty when there is none. -/
def Parent (n : Str) : Str :=
  if 0 ≤ strings.LastIndex n ['.'] then n.take (strings.LastIndex n ['.']).toNat else []

/-- Go `n.Name()`: the text after the last `.`, all of `n` when there is none. -/
def Name (n : Str) : Str :=
  if 0 ≤ strings.LastIndex n ['.'] then n.drop ((strings.LastIndex n ['.']).toNat + 1) else n

/-- Go `n.Append(s)`. -/
def Append (n s : Str) : Str :=
  if n = [] then s else n ++ ['.'] ++ s

end FullName

/-- Go `protoreflect.Descriptor`, the interface value: a message descriptor, a
field (or extension) descriptor, or a descriptor of another sort. -/
inductive Descriptor where
  | message (m : MessageDescriptor)
  | field (fd : FieldDescriptor)
  | other (fullName : Str)

/-! ## LSP protocol values -/

/-- Go `protocol.Position`. -/
structure Position where
  Line : Nat
  Character : Nat
  deriving Repr, DecidableEq

/-- Go `protocol.Range`. -/
structure Range where
  Start : Position
  End : Position
  deriving Repr, DecidableEq

/-- Go `protocol.TextEdit`. -/
structure TextEdit where
  Range : Range
  NewText : Str
  deriving Repr, DecidableEq

/-- Go `protocol.CompletionItemKind`, the tags the engine uses. -/
inductive CompletionItemKind where
  | FieldCompletion | ValueCompletion | ModuleCompletion | StructCompletion
  deriving Repr, DecidableEq

/-- Go `protocol.InsertTextFormat`. -/
inductive InsertTextFormat where
  | PlainTextTextFormat | SnippetTextFormat
  deriving Repr, DecidableEq

/-- Go `protocol.InsertTextMode`. -/
inductive InsertTextMode where
  | AsIs | AdjustIndentation
  deriving Repr, DecidableEq

/-- Go `protocol.CompletionItem`, the fields the engine sets. `Documentation` is
the markdown text; a nil pointer or slice is `none` or `[]`. -/
structure CompletionItem where
  Label : Str
  Kind : CompletionItemKind
  Detail : Str
  Documentation : Option Str
  Deprecated : Bool
  TextEdit : Option TextEdit
  InsertTextFormat : Option InsertTextFormat
  InsertTextMode : Option InsertTextMode
  InsertText : Str
  CommitCharacters : List Str
  deriving Repr, DecidableEq

/-! ## Item synthesis (`completion.go`, lines 174-243 and 395-455) -/

/-- Go `fieldTypeDetail`. -/
def fieldTypeDetail (fld : FieldDescriptor) : Str :=
  match fld.type with
  | .message (.mapEntry _ k v) =>
    "map<".toList ++ k.fullName ++ ", ".toList ++ v.fullName ++ ">".toList
  | .message m =>
    if fld.IsExtension then
      FullName.Append (FullName.Parent fld.fullName)
        ("(".toList ++ FullName.Name fld.fullName ++ ")".toList)
    else m.FullName
  | .scalar k => Kind.String (.scalar k)
  | .group _ => Kind.String .GroupKind

/-- Go `fieldCompletion`. -/
def fieldCompletion (fld : FieldDescriptor) (rng : Range) : CompletionItem :=
  let name := fld.name
  let docs : Str := if 0 < fld.sourcePath.length then fld.leadingComments else []
  let compl : CompletionItem :=
    { Label := name
      Kind := .FieldCompletion
      Detail := fieldTypeDetail fld
      Documentation := some docs
      Deprecated := fld.deprecated
      TextEdit := none
      InsertTextFormat := none
      InsertTextMode := none
      InsertText := []
      CommitCharacters := [] }
  match fld.cardinality with
  | .Repeated =>
    { compl with
      Detail := "repeated ".toList ++ compl.Detail
      TextEdit := some ⟨rng, name ++ ": [\n  $\x7b0\x7d\n]".toList⟩
      InsertTextFormat := some .SnippetTextFormat
      InsertTextMode := some .AdjustIndentation }
  | _ =>
    match fld.type with
    | .message msg =>
      if !msg.IsMapEntry then
        { compl with
          TextEdit := some ⟨rng, name ++ ": \x7b\n  $\x7b0\x7d\n\x7d".toList⟩
          InsertTextFormat := some .SnippetTextFormat
          InsertTextMode := some .AdjustIndentation }
      else compl
    | _ => { compl with TextEdit := some ⟨rng, name ++ ": ".toList⟩ }

/-- Go `newMapFieldCompletionItem`, with `fld.MapKey()` and `fld.MapValue()`
passed by the caller, which has just checked `fld.Message().IsMapEntry()`. -/
def newMapFieldCompletionItem (fld mapKey mapValue : FieldDescriptor) : CompletionItem :=
  { Label := fld.name
    Kind := .StructCompletion
    Detail := fieldTypeDetail fld
    Documentation := none
    Deprecated := false
    TextEdit := none
    InsertTextFormat := some .SnippetTextFormat
    InsertTextMode := none
    InsertText := fld.name ++ " = \x7bkey: $\x7b1:".toList ++ fieldTypeDetail mapKey ++
      "\x7d, value: $\x7b2:".toList ++ fieldTypeDetail mapValue ++ "\x7d\x7d;".toList
    CommitCharacters := [] }

/-- Go `newMessageFieldCompletionItem`. -/
def newMessageFieldCompletionItem (fld : FieldDescriptor) : CompletionItem :=
  { Label := fld.name
    Kind := .StructCompletion
    Detail := fieldTypeDetail fld
    Documentation := none
    Deprecated := false
    TextEdit := none
    InsertTextFormat := none
    InsertTextMode := none
    InsertText := fld.name
    CommitCharacters := [['.']] }

/-- Go `newExtensionFieldCompletionItem`. -/
def newExtensionFieldCompletionItem (fld : FieldDescriptor) (needsLeadingOpenParen : Bool) :
    CompletionItem :=
  { Label := fld.name
    Kind := .ModuleCompletion
    Detail := fieldTypeDetail fld
    Documentation := none
    Deprecated := false
    TextEdit := none
    InsertTextFormat := none
    InsertTextMode := none
    InsertText :=
      if needsLeadingOpenParen then ['('] ++ fld.name ++ [')'] else fld.name ++ [')']
    CommitCharacters := [['.']] }

/-- Go `newNonMessageFieldCompletionItem`. -/
def newNonMessageFieldCompletionItem (fld : FieldDescriptor) : CompletionItem :=
  { Label := fld.name
    Kind := .ValueCompletion
    Detail := fieldTypeDetail fld
    Documentation := none
    Deprecated := false
    TextEdit := none
    InsertTextFormat := some .SnippetTextFormat
    InsertTextMode := none
    InsertText := fld.name ++ " = $\x7b0\x7d;".toList
    CommitCharacters := [] }

/-- Go `newExtensionNonMessageFieldCompletionItem`. -/
def newExtensionNonMessageFieldCompletionItem (fld : FieldDescriptor)
    (needsLeadingOpenParen : Bool) : CompletionItem :=
  { Label := fld.name
    Kind := .ValueCompletion
    Detail := fieldTypeDetail fld
    Documentation := none
    Deprecated := false
    TextEdit := none
    InsertTextFormat := some .SnippetTextFormat
    InsertTextMode := none
    InsertText :=
      if needsLeadingOpenParen then ['('] ++ fld.name ++ ") = $\x7b0\x7d;".toList
      else fld.name ++ ") = $\x7b0\x7d;".toList
    CommitCharacters := [] }

/-! ## Syntax trees and the linked model -/

/-- Go `ast.Token`. -/
abbrev Token := Int

/-- Go `*ast.MessageFieldNode`, an element of a message literal, by the
identifier `elem.Name.Name.AsIdentifier()`. -/
structure MessageFieldNode where
  Name : Str
  deriving Repr, DecidableEq

/-- Go `ast.Node`, by the dynamic types the engine switches on. -/
inductive Node where
  | FileNode
  | MessageNode
  | FieldNode
  | MessageLiteralNode (Elements : List MessageFieldNode)
  | OtherNode
  deriving Repr, DecidableEq

/-- Go `*ast.FileNode`, by its method `TokenAtOffset`. -/
structure FileNode where
  TokenAtOffset : Int → Token

/-- Go `parser.Result`, by its method `AST()`. -/
structure ParseResult where
  AST : FileNode

/-- Go `linker.Result`; it embeds `parser.Result`, whose AST is the one the model
was linked from. `FindExtensionByName` is the method of
`linker.ResolverFromFile(linkRes)`, `descriptorsByPrefix` the answer of the
descriptor index for a name before the caller's predicate is applied. -/
structure LinkResult extends ParseResult where
  Package : Str
  FindExtensionByName : Str → Except Error FieldDescriptor
  descriptorsByPrefix : Str → Except Error (List Descriptor)

/-- Modelled from the spec: `linkRes.FindDescriptorsByPrefix(ctx, pfx, filter)`, a
method of the linked model that is not among the sources; by section 6 of the
specification it returns the descriptors the index has for `pfx`, filtered by
the caller's predicate, in index order. -/
def LinkResult.FindDescriptorsByPrefix (linkRes : LinkResult) (pfx : Str)
    (filter : Descriptor → Bool) : Except Error (List Descriptor) :=
  match linkRes.descriptorsByPrefix pfx with
  | .error e => .error e
  | .ok ds => .ok (ds.filter filter)

/-- A Go call `v, err := f(...)` followed by `if err != nil { return nil, err }`. -/
def Outcome.ofExcept {α : Type} : Except Error α → Outcome α
  | .ok v => .ret v
  | .error e => .err e

/-! ## Option-name completion (`completion.go`, lines 249-393) -/

/-- The full name of the options message of a message declaration. -/
def messageOptionsFullName : Str := "google.protobuf.MessageOptions".toList

/-- The predicate handed to `FindDescriptorsByPrefix` (lines 267-276). -/
def messageOptionFilter (wantExtension : Bool) : Descriptor → Bool
  | .field fd =>
    if wantExtension then
      fd.IsExtension && decide (fd.ContainingMessageFullName = messageOptionsFullName)
    else
      !fd.IsExtension && decide (fd.ContainingMessageFullName = messageOptionsFullName)
  | _ => false

/-- The items appended for one candidate (lines 283-296). -/
def candidateItems (fd : FieldDescriptor) (wantExtension : Bool) : List CompletionItem :=
  match fd.type with
  | .message _ =>
    if fd.IsExtension && wantExtension then [newExtensionFieldCompletionItem fd false]
    else if !fd.IsExtension && !wantExtension then [newMessageFieldCompletionItem fd]
    else []
  | _ =>
    if fd.IsExtension && wantExtension then [newExtensionNonMessageFieldCompletionItem fd false]
    else if !fd.IsExtension && !wantExtension then [newNonMessageFieldCompletionItem fd]
    else []

/-- The loop over the candidates (lines 280-298); the type assertion
`candidate.(protoreflect.FieldDescriptor)` panics on any other descriptor. -/
def candidatesLoop (wantExtension : Bool) :
    List Descriptor → List CompletionItem → Outcome (List CompletionItem)
  | [], items => .ret items
  | .field fd :: rest, items => candidatesLoop wantExtension rest (items ++ candidateItems fd wantExtension)
  | _ :: _, _ => .panic

/-- One iteration of the walk over the leading segments (lines 303-338);
`none` is the nil context. -/
def walkOptionsPathStep (linkRes : LinkResult) (currentContext : Option MessageDescriptor)
    (part : Str) : Outcome (Option MessageDescriptor) :=
  let isExtension := strings.HasPrefix part ['('] && strings.HasSuffix part [')']
  let next : Outcome (Option MessageDescriptor) :=
    if isExtension then
      match currentContext with
      | none =>
        let targetName := strings.Trim part ['(', ')']
        let fqn :=
          if !strings.Contains targetName ['.'] then FullName.Append linkRes.Package targetName
          else targetName
        match linkRes.FindExtensionByName fqn with
        | .error e => .err e
        | .ok xt => .ret xt.Message
      | some ctx =>
        match ByName ctx.Extensions (strings.Trim part ['(', ')']) with
        | none => .err ("no such extension ".toList ++ part)
        | some xt => .ret xt.Message
    else
      match currentContext with
      | some ctx =>
        match ByName ctx.Fields part with
        | none => .err ("no such field ".toList ++ part)
        | some fd =>
          match fd.containing with
          | .extendee m => .ret (some m)
          | .declaredIn _ => .ret fd.Message
      | none => .ret none
  next.bind fun ctx =>
    match ctx with
    | none => .err ("no such extension ".toList ++ part)
    | some m => .ret (some m)

/-- The walk over the leading segments `parts[:len(parts)-1]` (lines 301-339). -/
def walkOptionsPath (linkRes : LinkResult) :
    Option MessageDescriptor → List Str → Outcome (Option MessageDescriptor)
  | currentContext, [] => .ret currentContext
  | currentContext, part :: rest =>
    (walkOptionsPathStep linkRes currentContext part).bind fun ctx =>
      walkOptionsPath linkRes ctx rest

/-- The item for one extension of the final context (lines 347-363). -/
def lastPartExtensionItems (lastPart : Str) (ext : FieldDescriptor) : List CompletionItem :=
  if !strings.Contains ext.name lastPart then []
  else
    match ext.type with
    | .message (.mapEntry _ k v) => [newMapFieldCompletionItem ext k v]
    | .message _ => [newExtensionFieldCompletionItem ext true]
    | _ => if strings.Contains ext.name lastPart then [newNonMessageFieldCompletionItem ext] else []

/-- The item for one field of the final context (lines 369-387). -/
def lastPartFieldItems (lastPart : Str) (fld : FieldDescriptor) : List CompletionItem :=
  if !strings.Contains fld.name lastPart then []
  else
    match fld.type with
    | .message (.mapEntry _ k v) => [newMapFieldCompletionItem fld k v]
    | .message _ =>
      if fld.IsExtension then [newExtensionFieldCompletionItem fld false]
      else [newMessageFieldCompletionItem fld]
    | _ => if strings.Contains fld.name lastPart then [newNonMessageFieldCompletionItem fld] else []

/-- The filter by the last segment (lines 340-390); a nil context panics at
`currentContext.Extensions()` or `currentContext.Fields()`. -/
def filterByLastPart (currentContext : Option MessageDescriptor) (lastPart : Str) :
    Outcome (List CompletionItem) :=
  match currentContext with
  | none => .panic
  | some ctx =>
    if strings.HasPrefix lastPart ['('] then
      .ret (ctx.Extensions.flatMap (lastPartExtensionItems lastPart))
    else
      .ret (ctx.Fields.flatMap (lastPartFieldItems lastPart))

/-- Go `completeMessageOptionNames`. -/
def completeMessageOptionNames (_path : List Node) (maybePartialName : Str)
    (linkRes : LinkResult) : Outcome (List CompletionItem) :=
  let parts := strings.Split maybePartialName '.'
  if parts.length = 1 ∧ strings.HasSuffix maybePartialName [')'] = false then
    let wantExtension := strings.HasPrefix maybePartialName ['(']
    let maybePartialName :=
      if wantExtension then strings.TrimPrefix maybePartialName ['('] else maybePartialName
    (Outcome.ofExcept
      (linkRes.FindDescriptorsByPrefix maybePartialName (messageOptionFilter wantExtension))).bind
      fun candidates => candidatesLoop wantExtension candidates []
  else if parts.length > 1 then
    (walkOptionsPath linkRes none parts.dropLast).bind fun currentContext =>
      match parts.getLast? with
      | none => .panic
      | some lastPart => filterByLastPart currentContext lastPart
  else .ret []

/-- Go `completeOptionNames`; `path[len(path)-1]` panics on an empty path. -/
def completeOptionNames (path : List Node) (maybePartialName : Str) (linkRes : LinkResult) :
    Outcome (List CompletionItem) :=
  match path.getLast? with
  | none => .panic
  | some .MessageNode => completeMessageOptionNames path maybePartialName linkRes
  | some _ => .ret []

/-! ## The request orchestrator (`completion.go`, lines 18-134) -/

/-- Go `protocol.Mapper`, by its content and its two offset methods. -/
structure Mapper where
  Content : Str
  PositionOffset : Position → Except Error Int
  RangeOffsets : Range → Except Error (Int × Int)

/-- Go `*Cache`, by the four lookups of `GetCompletions`; a nil `linker.Result`
returned without an error is `none`. -/
structure Cache where
  FindParseResultByURI : Str → Except Error ParseResult
  FindResultByURI : Str → Except Error (Option LinkResult)
  GetMapper : Str → Except Error Mapper
  LatestDocumentContentsWellFormed : Str → Except Error Bool

/-- The two functions of package `lsp` that `GetCompletions` calls and that are
declared in other files of the package; they are taken as parameters.
`findNarrowestEnclosingScope` returns the path and the flag `found`. -/
structure Env where
  findNarrowestEnclosingScope : ParseResult → Token → Position → List Node × Bool
  deepPathSearch : List Node → LinkResult → Except Error (Option Descriptor)

/-- Go `protocol.CompletionParams`, by the document URI and the cursor position. -/
structure CompletionParams where
  URI : Str
  Position : Position
  deriving Repr, DecidableEq

/-- The search target (lines 53-61): the linked result when the latest contents
are not well-formed, the current parse result otherwise; `none` is a nil
interface value. -/
def searchTarget (latestAstValid : Bool) (currentParseRes : ParseResult)
    (maybeCurrentLinkRes : Option LinkResult) : Option ParseResult :=
  if !latestAstValid then maybeCurrentLinkRes.map LinkResult.toParseResult
  else some currentParseRes

/-- The token at the cursor (line 62), `searchTarget.AST().TokenAtOffset(posOffset)`
for a non-nil target. -/
def tokenAtOffset (target : ParseResult) (posOffset : Int) : Token :=
  target.AST.TokenAtOffset posOffset

/-- The keyword of the option heuristic. -/
def optionKeyword : Str := "option ".toList

/-- The option-statement heuristic (lines 66-71): `some partialName` when the
option branch is entered, `none` when it is not; a slice out of range panics. -/
def optionPartialName (textPrecedingCursor : Str) : Outcome (Option Str) :=
  let indexOfOptionKeyword := strings.LastIndex textPrecedingCursor optionKeyword
  if indexOfOptionKeyword ≠ -1 then
    match strings.sliceFrom textPrecedingCursor indexOfOptionKeyword with
    | none => .panic
    | some fromKeyword =>
      if !strings.Contains fromKeyword [';'] then
        match strings.sliceFrom textPrecedingCursor
            (indexOfOptionKeyword + (optionKeyword.length : Int)) with
        | none => .panic
        | some afterKeyword => .ret (some (strings.TrimSpace afterKeyword))
      else .ret none
  else .ret none

/-- The option branch (lines 65-85): the items it appends to `completions`. -/
def optionCompletions (env : Env) (params : CompletionParams) (currentParseRes : ParseResult)
    (maybeCurrentLinkRes : Option LinkResult) (tok : Token) (textPrecedingCursor : Str) :
    Outcome (List CompletionItem) :=
  (optionPartialName textPrecedingCursor).bind fun heuristic =>
    match heuristic with
    | none => .ret []
    | some partialName =>
      match maybeCurrentLinkRes with
      | none => .ret []
      | some linkRes =>
        match env.findNarrowestEnclosingScope currentParseRes tok params.Position with
        | (path, true) => completeOptionNames path partialName linkRes
        | (_, false) => .ret []

/-- The names of the literal's elements that are fields of `desc` (lines 107-115). -/
def existingFieldNames (desc : MessageDescriptor) (elements : List MessageFieldNode) : List Str :=
  (elements.map (fun elem => elem.Name)).filter (fun name => (ByName desc.Fields name).isSome)

/-- The items appended for a message literal (lines 116-126). -/
def messageLiteralCompletions (desc : MessageDescriptor) (elements : List MessageFieldNode)
    (position : Position) : List CompletionItem :=
  (desc.Fields.filter (fun fld => !(existingFieldNames desc elements).contains fld.name)).map
    (fun fld => fieldCompletion fld ⟨position, position⟩)

/-- The message-literal branch (lines 97-129): the items it appends to `completions`. -/
def literalCompletions (env : Env) (params : CompletionParams) (target : ParseResult)
    (maybeCurrentLinkRes : Option LinkResult) (tok : Token) : Outcome (List CompletionItem) :=
  match env.findNarrowestEnclosingScope target tok params.Position, maybeCurrentLinkRes with
  | (path, true), some linkRes =>
    (Outcome.ofExcept (env.deepPathSearch path linkRes)).bind fun desc =>
      match desc with
      | some (.message desc) =>
        match path.getLast? with
        | none => .panic
        | some (.MessageLiteralNode elements) =>
          .ret (messageLiteralCompletions desc elements params.Position)
        | some _ => .ret []
      | _ => .ret []
  | _, _ => .ret []

/-- Go `(*Cache).GetCompletions`; `searchTarget.AST()` (line 62) panics on a nil
target, and `computeSemanticTokens` (line 95) fills a local value that is not
read afterwards. The result is the `Items` of the returned list. -/
def GetCompletions (env : Env) (c : Cache) (params : CompletionParams) :
    Outcome (List CompletionItem) :=
  (Outcome.ofExcept (c.FindParseResultByURI params.URI)).bind fun currentParseRes =>
  (Outcome.ofExcept (c.FindResultByURI params.URI)).bind fun maybeCurrentLinkRes =>
  (Outcome.ofExcept (c.GetMapper params.URI)).bind fun mapper =>
  (Outcome.ofExcept (mapper.PositionOffset params.Position)).bind fun posOffset =>
  (Outcome.ofExcept (mapper.RangeOffsets ⟨⟨params.Position.Line, 0⟩, params.Position⟩)).bind
    fun offsets =>
  match strings.slice mapper.Content offsets.1 offsets.2 with
  | none => .panic
  | some textPrecedingCursor =>
    (Outcome.ofExcept (c.LatestDocumentContentsWellFormed params.URI)).bind fun latestAstValid =>
    match searchTarget latestAstValid currentParseRes maybeCurrentLinkRes with
    | none => .panic
    | some target =>
      (optionCompletions env params currentParseRes maybeCurrentLinkRes
        (tokenAtOffset target posOffset) textPrecedingCursor).bind fun optionItems =>
      (literalCompletions env params target maybeCurrentLinkRes
        (tokenAtOffset target posOffset)).bind fun literalItems =>
        .ret (optionItems ++ literalItems)

/-! ## Segments that fail to resolve -/

/-- The qualified name under which an extension segment is looked up when there
is no context yet (lines 306-312). -/
def extensionTargetName (linkRes : LinkResult) (part : Str) : Str :=
  if !strings.Contains (strings.Trim part ['(', ')']) ['.'] then
    FullName.Append linkRes.Package (strings.Trim part ['(', ')'])
  else strings.Trim part ['(', ')']

/-- The test of line 303: the segment is wrapped in parentheses. -/
def isExtensionPart (part : Str) : Bool :=
  strings.HasPrefix part ['('] && strings.HasSuffix part [')']

/-- A leading segment `part` fails to resolve in the context `ctx`: the ways
the specification lists (extension not found by the resolver, extension or
field not declared in the current context, scalar-typed target), and a plain
segment for which there is no context to look it up in. -/
inductive SegmentUnresolved (linkRes : LinkResult) :
    Option MessageDescriptor → Str → Prop where
  | extensionNotFound (part : Str) (e : Error) :
      isExtensionPart part = true →
      linkRes.FindExtensionByName (extensionTargetName linkRes part) = .error e →
      SegmentUnresolved linkRes none part
  | extensionScalar (part : Str) (xt : FieldDescriptor) :
      isExtensionPart part = true →
      linkRes.FindExtensionByName (extensionTargetName linkRes part) = .ok xt →
      xt.Message = none →
      SegmentUnresolved linkRes none part
  | extensionNotDeclared (ctx : MessageDescriptor) (part : Str) :
      isExtensionPart part = true →
      ByName ctx.Extensions (strings.Trim part ['(', ')']) = none →
      SegmentUnresolved linkRes (some ctx) part
  | declaredExtensionScalar (ctx : MessageDescriptor) (part : Str) (xt : FieldDescriptor) :
      isExtensionPart part = true →
      ByName ctx.Extensions (strings.Trim part ['(', ')']) = some xt →
      xt.Message = none →
      SegmentUnresolved linkRes (some ctx) part
  | fieldNotDeclared (ctx : MessageDescriptor) (part : Str) :
      isExtensionPart part = false →
      ByName ctx.Fields part = none →
      SegmentUnresolved linkRes (some ctx) part
  | fieldScalar (ctx : MessageDescriptor) (part : Str) (fd : FieldDescriptor) :
      isExtensionPart part = false →
      ByName ctx.Fields part = some fd →
      fd.IsExtension = false →
      fd.Message = none →
      SegmentUnresolved linkRes (some ctx) part
  | plainWithoutContext (part : Str) :
      isExtensionPart part = false →
      SegmentUnresolved linkRes none part

/-! ## Requests whose lookups succeed -/

/-- The cache lookups and the position and range mapping of a request succeed:
they give the current parse result, the linked result (or nil), the cursor
offset, the text from the start of the line to the cursor, and the
well-formedness flag. -/
structure Prelude (c : Cache) (params : CompletionParams) (currentParseRes : ParseResult)
    (maybeCurrentLinkRes : Option LinkResult) (posOffset : Int) (textPrecedingCursor : Str)
    (latestAstValid : Bool) : Prop where
  parseRes : c.FindParseResultByURI params.URI = .ok currentParseRes
  linkRes : c.FindResultByURI params.URI = .ok maybeCurrentLinkRes
  mapping : ∃ mapper offsets, c.GetMapper params.URI = .ok mapper ∧
    mapper.PositionOffset params.Position = .ok posOffset ∧
    mapper.RangeOffsets ⟨⟨params.Position.Line, 0⟩, params.Position⟩ = .ok offsets ∧
    strings.slice mapper.Content offsets.1 offsets.2 = some textPrecedingCursor
  wellFormed : c.LatestDocumentContentsWellFormed params.URI = .ok latestAstValid

/-! ## Concrete descriptors and requests used as witnesses -/

/-- A regular field declared in a message. -/
def regularField (parent name : Str) (type : FieldType MessageDescriptor)
    (cardinality : Cardinality) : FieldDescriptor :=
  { name := name
    fullName := parent ++ ['.'] ++ name
    type := type
    cardinality := cardinality
    containing := .declaredIn parent
    deprecated := false
    sourcePath := []
    leadingComments := [] }

/-- The message `pkg.M { int32 a = 1; string b = 2; repeated int32 c = 3; }`. -/
def sampleMessage : MessageDescriptor :=
  .message "pkg.M".toList
    [ regularField "pkg.M".toList "a".toList (.scalar .Int32Kind) .Optional,
      regularField "pkg.M".toList "b".toList (.scalar .StringKind) .Optional,
      regularField "pkg.M".toList "c".toList (.scalar .Int32Kind) .Repeated ]
    []

/-- The built-in option `google.protobuf.MessageOptions.deprecated`. -/
def deprecatedOption : FieldDescriptor :=
  regularField messageOptionsFullName "deprecated".toList (.scalar .BoolKind) .Optional

/-- The message `foo.Opts { string baz = 1; }`. -/
def optsMessage : MessageDescriptor :=
  .message "foo.Opts".toList
    [regularField "foo.Opts".toList "baz".toList (.scalar .StringKind) .Optional] []

/-- The extension `extend google.protobuf.MessageOptions { foo.Opts Bar = 50001; }`
of package `foo`. -/
def barExtension : FieldDescriptor :=
  { name := "Bar".toList
    fullName := "foo.Bar".toList
    type := .message optsMessage
    cardinality := .Optional
    containing := .extendee (.message messageOptionsFullName [deprecatedOption] [])
    deprecated := false
    sourcePath := []
    leadingComments := [] }

/-- The message `google.protobuf.FeatureSet { int32 field_presence = 1; }`. -/
def featureSetMessage : MessageDescriptor :=
  .message "google.protobuf.FeatureSet".toList
    [regularField "google.protobuf.FeatureSet".toList "field_presence".toList
      (.scalar .Int32Kind) .Optional] []

/-- The built-in, message-typed option `google.protobuf.MessageOptions.features`. -/
def featuresOption : FieldDescriptor :=
  regularField messageOptionsFullName "features".toList (.message featureSetMessage) .Optional

/-- A syntax tree that answers every offset with the token `tok`. -/
def sampleTree (tok : Token) : ParseResult :=
  { AST := { TokenAtOffset := fun _ => tok } }

/-- A linked model of package `pkg` over the tree with token `0`: its resolver
knows the extension `foo.Bar`, its index the options `deprecated` and `features`. -/
def sampleLinkRes (pkg : Str) : LinkResult :=
  { toParseResult := sampleTree 0
    Package := pkg
    FindExtensionByName := fun fqn =>
      if fqn = "foo.Bar".toList then .ok barExtension else .error "not found".toList
    descriptorsByPrefix := fun pfx =>
      .ok (([deprecatedOption, featuresOption].filter
        (fun fd => strings.HasPrefix fd.name pfx)).map Descriptor.field) }

/-- A cache holding one document of one line: the current parse result, the
linked result, the line `content` and the well-formedness flag. -/
def sampleCache (currentParseRes : ParseResult) (maybeCurrentLinkRes : Option LinkResult)
    (content : Str) (latestAstValid : Bool) : Cache :=
  { FindParseResultByURI := fun _ => .ok currentParseRes
    FindResultByURI := fun _ => .ok maybeCurrentLinkRes
    GetMapper := fun _ => .ok
      { Content := content
        PositionOffset := fun pos => .ok pos.Character
        RangeOffsets := fun rng => .ok (rng.Start.Character, rng.End.Character) }
    LatestDocumentContentsWellFormed := fun _ => .ok latestAstValid }

/-- A request with the cursor at column `col` of the only line. -/
def sampleParams (col : Nat) : CompletionParams :=
  { URI := "file:///a.proto".toList, Position := ⟨0, col⟩ }

/-- A locator that finds, in every tree, the message literal `{ c: 1 }`, and a
descriptor search that resolves it to `pkg.M`. -/
def literalEnv : Env :=
  { findNarrowestEnclosingScope := fun _ _ _ =>
      ([.FileNode, .MessageLiteralNode [⟨"c".toList⟩]], true)
    deepPathSearch := fun _ _ => .ok (some (.message sampleMessage)) }

/-- A locator that finds a message declaration in the tree whose token is `1`
and nothing in any other tree; the descriptor search finds no descriptor. -/
def optionEnv : Env :=
  { findNarrowestEnclosingScope := fun parseRes _ _ =>
      if parseRes.AST.TokenAtOffset 0 = 1 then ([.FileNode, .MessageNode], true) else ([], false)
    deepPathSearch := fun _ _ => .ok none }

/-- The candidates of the index that pass the predicate of lines 267-276, as
field descriptors, in index order. -/
def passingCandidates (wantExtension : Bool) (ds : List Descriptor) : List FieldDescriptor :=
  ds.filterMap fun d =>
    match d with
    | .field fd => if messageOptionFilter wantExtension (.field fd) then some fd else none
    | _ => none

/-- Invariants of a linked message descriptor: `Fields()` holds no extension
field, and the names of its extensions are identifiers, free of `(`. -/
def ContextWellFormed (ctx : MessageDescriptor) : Prop :=
  (∀ fld ∈ ctx.Fields, fld.IsExtension = false) ∧ (∀ ext ∈ ctx.Extensions, '(' ∉ ext.name)

/-- The map entry of `map<string, string> labels = 4;` in `pkg.M`. -/
def labelsEntry : MessageDescriptor :=
  .mapEntry "pkg.M.LabelsEntry".toList
    (regularField "pkg.M.LabelsEntry".toList "key".toList (.scalar .StringKind) .Optional)
    (regularField "pkg.M.LabelsEntry".toList "value".toList (.scalar .StringKind) .Optional)

/-- The map field `map<string, string> labels = 4;` of `pkg.M`; a map field is
a repeated field of its entry message. -/
def labelsField : FieldDescriptor :=
  regularField "pkg.M".toList "labels".toList (.message labelsEntry) .Repeated

/-- The extension `extend google.protobuf.MessageOptions { optional string owner = 50001; }`
declared in the scope of the message `foo.Scope`. -/
def ownerExtension : FieldDescriptor :=
  { name := "owner".toList
    fullName := "foo.Scope.owner".toList
    type := .scalar .StringKind
    cardinality := .Optional
    containing := .extendee (.message messageOptionsFullName [deprecatedOption] [])
    deprecated := false
    sourcePath := []
    leadingComments := [] }

/-- The message `foo.Scope { map<string, string> labels = 4; extend ... { owner } }`. -/
def scopeMessage : MessageDescriptor :=
  .message "foo.Scope".toList [labelsField] [ownerExtension]

/-- The extension `extend google.protobuf.MessageOptions { foo.Scope Holder = 50002; }`
of package `foo`. -/
def holderExtension : FieldDescriptor :=
  { name := "Holder".toList
    fullName := "foo.Holder".toList
    type := .message scopeMessage
    cardinality := .Optional
    containing := .extendee (.message messageOptionsFullName [deprecatedOption] [])
    deprecated := false
    sourcePath := []
    leadingComments := [] }

/-- A linked model of package `foo`: its resolver knows the extension
`foo.Holder`, its index the option `deprecated` and the extensions `owner`,
`Holder` and `Bar`, and the message `foo.Scope`. -/
def extensionLinkRes : LinkResult :=
  { toParseResult := sampleTree 0
    Package := "foo".toList
    FindExtensionByName := fun fqn =>
      if fqn = "foo.Holder".toList then .ok holderExtension else .error "not found".toList
    descriptorsByPrefix := fun pfx =>
      .ok (Descriptor.message scopeMessage ::
        ([deprecatedOption, ownerExtension, holderExtension, barExtension].filter
          (fun fd => strings.HasPrefix fd.name pfx)).map Descriptor.field) }

/-- A linked model whose descriptor index and extension resolver fail on every query. -/
def failingLinkRes : LinkResult :=
  { toParseResult := sampleTree 0
    Package := "foo".toList
    FindExtensionByName := fun _ => .error "resolver queried".toList
    descriptorsByPrefix := fun _ => .error "index queried".toList }

/-! ## Generated files (`sdk/codegen/generator.go`, lines 27-43) -/

/-- Go `byte`. -/
abbrev Byte := Fin 256

/-- Go `codegen.GeneratedFile`; the string `Content` is held as its bytes. -/
structure GeneratedFile where
  Name : Str
  SourceRelPath : Str
  Package : Str
  Content : List Byte
  deriving Repr, DecidableEq

/-- Go builtin `copy(dst, src)` from a string into a byte slice: the number of
bytes copied, the smaller of the two lengths, and `dst` after the copy, whose
leading bytes are those of `src` and whose other bytes are unchanged. -/
def copy (dst src : List Byte) : Nat × List Byte :=
  (min dst.length src.length,
    src.take (min dst.length src.length) ++ dst.drop (min dst.length src.length))

/-- What a call `g.Read(p)` leaves behind: the file behind the pointer receiver,
the buffer, and the two returned values (`err = none` is the nil error;
`io.EOF` would be an error). -/
structure ReadResult where
  g : GeneratedFile
  p : List Byte
  n : Nat
  err : Option Error
  deriving Repr, DecidableEq

/-- Go `(*GeneratedFile).Read`: `return copy(p, g.Content), nil`. -/
def GeneratedFile.Read (g : GeneratedFile) (p : List Byte) : ReadResult :=
  { g := g, p := (copy p g.Content).2, n := (copy p g.Content).1, err := none }

/-! ## White space, and descriptors for the rendering of extensions and maps -/

/-- White space as Unicode defines it (the property White_Space), by code
point: the characters `strings.TrimSpace` removes. -/
def IsUnicodeSpace (c : Char) : Prop :=
  c.toNat ∈ [0x09, 0x0A, 0x0B, 0x0C, 0x0D, 0x20, 0x85, 0xA0, 0x1680, 0x2028, 0x2029, 0x202F,
    0x205F, 0x3000] ∨ (0x2000 ≤ c.toNat ∧ c.toNat ≤ 0x200A)

/-- A message context `foo.Mixed` whose `Fields()` holds the message-typed
extension `Bar`, the case that lines 330 and 378 test with `IsExtension()`. -/
def mixedMessage : MessageDescriptor :=
  .message "foo.Mixed".toList [barExtension] []

/-- The extension `extend google.protobuf.MessageOptions { foo.Mixed Wrap = 50003; }`
of package `foo`. -/
def wrapExtension : FieldDescriptor :=
  { name := "Wrap".toList
    fullName := "foo.Wrap".toList
    type := .message mixedMessage
    cardinality := .Optional
    containing := .extendee (.message messageOptionsFullName [deprecatedOption] [])
    deprecated := false
    sourcePath := []
    leadingComments := [] }

/-- A map-typed field `labels` whose containing message is
`google.protobuf.MessageOptions`. -/
def mapOption : FieldDescriptor :=
  regularField messageOptionsFullName "labels".toList (.message labelsEntry) .Repeated

/-- A linked model of package `foo`: its resolver knows the extension
`foo.Wrap`, its index the map-typed option `labels`. -/
def wrapLinkRes : LinkResult :=
  { toParseResult := sampleTree 0
    Package := "foo".toList
    FindExtensionByName := fun fqn =>
      if fqn = "foo.Wrap".toList then .ok wrapExtension else .error "not found".toList
    descriptorsByPrefix := fun pfx =>
      .ok (([mapOption].filter (fun fd => strings.HasPrefix fd.name pfx)).map Descriptor.field) }

/-- A descriptor search that resolves the path of the literal `{ c: 1 }` to
`pkg.M` and fails on every other path. -/
def literalOnlySearch : List Node → LinkResult → Except Error (Option Descriptor) :=
  fun path _ =>
    if path = [.FileNode, .MessageLiteralNode [⟨"c".toList⟩]] then
      .ok (some (.message sampleMessage))
    else .error "wrong path".toList

/-! ## Message-literal field completion -/

theorem fieldCompletion_Label (fld : FieldDescriptor) (rng : Range) :
    (fieldCompletion fld rng).Label = fld.name := by
  unfold fieldCompletion
  cases fld.cardinality <;> cases fld.type <;> simp <;> split <;> rfl

theorem byName_isSome_of_mem (fds : List FieldDescriptor) (fld : FieldDescriptor)
    (h : fld ∈ fds) : (ByName fds fld.name).isSome = true := by
  unfold ByName
  rw [List.find?_isSome]
  exact ⟨fld, h, by simp⟩

theorem existingFieldNames_contains (desc : MessageDescriptor)
    (elements : List MessageFieldNode) (fld : FieldDescriptor) (h : fld ∈ desc.Fields) :
    (existingFieldNames desc elements).contains fld.name
      = decide (fld.name ∈ elements.map (fun elem => elem.Name)) := by
  have hsome := byName_isSome_of_mem desc.Fields fld h
  rw [Bool.eq_iff_iff, decide_eq_true_eq]
  show List.elem fld.name (existingFieldNames desc elements) = true ↔ _
  rw [List.elem_iff]
  unfold existingFieldNames
  rw [List.mem_filter]
  constructor
  · intro hm
    exact hm.1
  · intro hm
    exact ⟨hm, hsome⟩

theorem messageLiteralCompletions_eq (desc : MessageDescriptor)
    (elements : List MessageFieldNode) (position : Position) :
    messageLiteralCompletions desc elements position
      = (desc.Fields.filter
          (fun fld => decide (fld.name ∉ elements.map (fun elem => elem.Name)))).map
          (fun fld => fieldCompletion fld ⟨position, position⟩) := by
  unfold messageLiteralCompletions
  congr 1
  apply List.filter_congr
  intro fld hfld
  rw [existingFieldNames_contains desc elements fld hfld]
  by_cases hm : fld.name ∈ elements.map (fun elem => elem.Name) <;> simp [hm]

/-- With the lookups of a request done, `GetCompletions` is the selection of the
search target followed by the option branch and the message-literal branch. -/
theorem getCompletions_of_prelude (env : Env) (c : Cache) (params : CompletionParams)
    (currentParseRes : ParseResult) (maybeCurrentLinkRes : Option LinkResult)
    (posOffset : Int) (textPrecedingCursor : Str) (latestAstValid : Bool)
    (hpre : Prelude c params currentParseRes maybeCurrentLinkRes posOffset
      textPrecedingCursor latestAstValid) :
    GetCompletions env c params =
      match searchTarget latestAstValid currentParseRes maybeCurrentLinkRes with
      | none => .panic
      | some target =>
        (optionCompletions env params currentParseRes maybeCurrentLinkRes
          (tokenAtOffset target posOffset) textPrecedingCursor).bind fun optionItems =>
        (literalCompletions env params target maybeCurrentLinkRes
          (tokenAtOffset target posOffset)).bind fun literalItems =>
          .ret (optionItems ++ literalItems) := by
  obtain ⟨h1, h2, ⟨mapper, offsets, h3, h4, h5, h6⟩, h7⟩ := hpre
  unfold GetCompletions
  simp only [h1, h2, h3, h4, h5, h6, h7, Outcome.ofExcept, Outcome.bind]

/-- The lookups of a request on `sampleCache` succeed when the cursor column
is inside the line. -/
theorem sampleCache_prelude (currentParseRes : ParseResult)
    (maybeCurrentLinkRes : Option LinkResult) (content : Str) (latestAstValid : Bool)
    (col : Nat) (hcol : col ≤ content.length) :
    Prelude (sampleCache currentParseRes maybeCurrentLinkRes content latestAstValid)
      (sampleParams col) currentParseRes maybeCurrentLinkRes col (content.take col)
      latestAstValid := by
  refine ⟨rfl, rfl, ⟨_, _, rfl, rfl, rfl, ?_⟩, rfl⟩
  simp [strings.slice, sampleParams, hcol]

/-- The message-literal branch inside `GetCompletions`: when the scope path of
the search target resolves to a message descriptor and ends in a message
literal, the result is the option items followed by `messageLiteralCompletions`. -/
theorem getCompletions_literal_branch (env : Env) (c : Cache)
    (params : CompletionParams) (currentParseRes : ParseResult) (linkRes : LinkResult)
    (posOffset : Int) (textPrecedingCursor : Str) (latestAstValid : Bool)
    (target : ParseResult) (path : List Node) (desc : MessageDescriptor)
    (elements : List MessageFieldNode) (optionItems : List CompletionItem)
    (hpre : Prelude c params currentParseRes (some linkRes) posOffset textPrecedingCursor
      latestAstValid)
    (htarget : searchTarget latestAstValid currentParseRes (some linkRes) = some target)
    (hopt : optionCompletions env params currentParseRes (some linkRes)
      (tokenAtOffset target posOffset) textPrecedingCursor = .ret optionItems)
    (hscope : env.findNarrowestEnclosingScope target (tokenAtOffset target posOffset)
      params.Position = (path, true))
    (hdeep : env.deepPathSearch path linkRes = .ok (some (.message desc)))
    (hlast : path.getLast? = some (.MessageLiteralNode elements)) :
    GetCompletions env c params
      = .ret (optionItems ++ messageLiteralCompletions desc elements params.Position) := by
  rw [getCompletions_of_prelude env c params _ _ _ _ _ hpre, htarget]
  simp only [hopt, Outcome.bind, literalCompletions, hscope, hdeep, Outcome.ofExcept, hlast]

/-- C1. Message-literal field completion in `GetCompletions`: when the scope
path of the search target resolves to a message descriptor and ends in a
message literal, the items appended after the option items are exactly one item
per declared field whose name is not the name of an element of the literal, in
declaration order, each built by `fieldCompletion` at the cursor and labelled
with the field name. -/
theorem getCompletions_messageLiteral_fields (env : Env) (c : Cache)
    (params : CompletionParams) (currentParseRes : ParseResult) (linkRes : LinkResult)
    (posOffset : Int) (textPrecedingCursor : Str) (latestAstValid : Bool)
    (target : ParseResult) (path : List Node) (desc : MessageDescriptor)
    (elements : List MessageFieldNode) (optionItems : List CompletionItem)
    (hpre : Prelude c params currentParseRes (some linkRes) posOffset textPrecedingCursor
      latestAstValid)
    (htarget : searchTarget latestAstValid currentParseRes (some linkRes) = some target)
    (hopt : optionCompletions env params currentParseRes (some linkRes)
      (tokenAtOffset target posOffset) textPrecedingCursor = .ret optionItems)
    (hscope : env.findNarrowestEnclosingScope target (tokenAtOffset target posOffset)
      params.Position = (path, true))
    (hdeep : env.deepPathSearch path linkRes = .ok (some (.message desc)))
    (hlast : path.getLast? = some (.MessageLiteralNode elements)) :
    ∃ appended : List CompletionItem,
      GetCompletions env c params = .ret (optionItems ++ appended) ∧
      appended = (desc.Fields.filter
          (fun fld => decide (fld.name ∉ elements.map (fun elem => elem.Name)))).map
          (fun fld => fieldCompletion fld ⟨params.Position, params.Position⟩) ∧
      appended.map (fun item => item.Label) = (desc.Fields.filter
          (fun fld => decide (fld.name ∉ elements.map (fun elem => elem.Name)))).map
          (fun fld => fld.name) := by
  refine ⟨_, ?_, rfl, ?_⟩
  · rw [getCompletions_literal_branch env c params currentParseRes linkRes posOffset
      textPrecedingCursor latestAstValid target path desc elements optionItems hpre htarget
      hopt hscope hdeep hlast, messageLiteralCompletions_eq]
  · simp [List.map_map, Function.comp_def, fieldCompletion_Label]

/-- Witness of C1: the literal `{ c: 1 }` of type `pkg.M` is offered `a` and `b`. -/
theorem getCompletions_messageLiteral_fields_witness :
    ∃ appended : List CompletionItem,
      GetCompletions literalEnv
        (sampleCache (sampleTree 1) (some (sampleLinkRes "pkg".toList)) "  x: 1".toList true)
        (sampleParams 6) = .ret ([] ++ appended) ∧
      appended = (sampleMessage.Fields.filter
          (fun fld => decide (fld.name ∉ [⟨"c".toList⟩].map
            (fun elem : MessageFieldNode => elem.Name)))).map
          (fun fld => fieldCompletion fld ⟨(sampleParams 6).Position, (sampleParams 6).Position⟩) ∧
      appended.map (fun item => item.Label) = (sampleMessage.Fields.filter
          (fun fld => decide (fld.name ∉ [⟨"c".toList⟩].map
            (fun elem : MessageFieldNode => elem.Name)))).map
          (fun fld => fld.name) :=
  getCompletions_messageLiteral_fields literalEnv
    (sampleCache (sampleTree 1) (some (sampleLinkRes "pkg".toList)) "  x: 1".toList true)
    (sampleParams 6) (sampleTree 1) (sampleLinkRes "pkg".toList) 6 ("  x: 1".toList.take 6) true
    (sampleTree 1) [.FileNode, .MessageLiteralNode [⟨"c".toList⟩]] sampleMessage
    [⟨"c".toList⟩] []
    (sampleCache_prelude _ _ _ _ 6 (by decide)) rfl (by decide) rfl rfl rfl

/-- C2 (as the code behaves). A declared field whose name is already the name of
an element of the literal, repeated or singular, is not offered: no item
appended by the message-literal branch of `GetCompletions` is labelled with it. -/
theorem getCompletions_present_field_not_offered (env : Env) (c : Cache)
    (params : CompletionParams) (currentParseRes : ParseResult) (linkRes : LinkResult)
    (posOffset : Int) (textPrecedingCursor : Str) (latestAstValid : Bool)
    (target : ParseResult) (path : List Node) (desc : MessageDescriptor)
    (elements : List MessageFieldNode) (optionItems : List CompletionItem)
    (fld : FieldDescriptor)
    (hpre : Prelude c params currentParseRes (some linkRes) posOffset textPrecedingCursor
      latestAstValid)
    (htarget : searchTarget latestAstValid currentParseRes (some linkRes) = some target)
    (hopt : optionCompletions env params currentParseRes (some linkRes)
      (tokenAtOffset target posOffset) textPrecedingCursor = .ret optionItems)
    (hscope : env.findNarrowestEnclosingScope target (tokenAtOffset target posOffset)
      params.Position = (path, true))
    (hdeep : env.deepPathSearch path linkRes = .ok (some (.message desc)))
    (hlast : path.getLast? = some (.MessageLiteralNode elements))
    (_hfld : fld ∈ desc.Fields)
    (hpresent : fld.name ∈ elements.map (fun elem => elem.Name)) :
    ∃ appended : List CompletionItem,
      GetCompletions env c params = .ret (optionItems ++ appended) ∧
      ∀ item ∈ appended, item.Label ≠ fld.name := by
  refine ⟨_, getCompletions_literal_branch env c params currentParseRes linkRes posOffset
      textPrecedingCursor latestAstValid target path desc elements optionItems hpre htarget
      hopt hscope hdeep hlast, ?_⟩
  intro item hitem hlabel
  rw [messageLiteralCompletions_eq, List.mem_map] at hitem
  obtain ⟨g, hg, rfl⟩ := hitem
  rw [List.mem_filter, decide_eq_true_eq] at hg
  rw [fieldCompletion_Label] at hlabel
  exact hg.2 (hlabel ▸ hpresent)

/-- Witness of C2 (as the code behaves): in the literal `{ c: 1 }` of type `pkg.M`
the repeated field `c` is not offered. -/
theorem getCompletions_present_field_not_offered_witness :
    ∃ appended : List CompletionItem,
      GetCompletions literalEnv
        (sampleCache (sampleTree 1) (some (sampleLinkRes "pkg".toList)) "  x: 1".toList true)
        (sampleParams 6) = .ret ([] ++ appended) ∧
      ∀ item ∈ appended, item.Label ≠
        (regularField "pkg.M".toList "c".toList (.scalar .Int32Kind) .Repeated).name :=
  getCompletions_present_field_not_offered literalEnv
    (sampleCache (sampleTree 1) (some (sampleLinkRes "pkg".toList)) "  x: 1".toList true)
    (sampleParams 6) (sampleTree 1) (sampleLinkRes "pkg".toList) 6 ("  x: 1".toList.take 6) true
    (sampleTree 1) [.FileNode, .MessageLiteralNode [⟨"c".toList⟩]] sampleMessage
    [⟨"c".toList⟩] [] (regularField "pkg.M".toList "c".toList (.scalar .Int32Kind) .Repeated)
    (sampleCache_prelude _ _ _ _ 6 (by decide)) rfl (by decide) rfl rfl rfl
    (by simp [sampleMessage, MessageDescriptor.Fields]) (by decide)

/-- Counterexample to C2 as stated: `pkg.M` declares the repeated field `c`, the
literal `{ c: 1 }` contains one element named `c`, and `GetCompletions` returns
items labelled `a` and `b` only. -/
theorem repeated_field_present_counterexample :
    (ByName sampleMessage.Fields "c".toList).map (fun fld => fld.cardinality)
      = some Cardinality.Repeated ∧
    GetCompletions literalEnv
      (sampleCache (sampleTree 1) (some (sampleLinkRes "pkg".toList)) "  x: 1".toList true)
      (sampleParams 6)
      = .ret (messageLiteralCompletions sampleMessage [⟨"c".toList⟩] ⟨0, 6⟩) ∧
    (messageLiteralCompletions sampleMessage [⟨"c".toList⟩] ⟨0, 6⟩).map (fun item => item.Label)
      = ["a".toList, "b".toList] := by
  refine ⟨by decide, by decide, by decide⟩

/-! ## The search target -/

/-- Counterexample to C3 as stated. The latest contents are not well-formed, the
locator finds no scope in the AST of the linked model and finds a message
declaration in the current tree; `GetCompletions` returns the option item
`deprecated`: the scope path handed to `completeOptionNames` together with the
linked model was computed from the current parse tree. -/
theorem getCompletions_option_scope_from_current_tree :
    optionEnv.findNarrowestEnclosingScope (sampleLinkRes "pkg".toList).toParseResult
        (tokenAtOffset (sampleLinkRes "pkg".toList).toParseResult 12) ⟨0, 12⟩ = ([], false) ∧
    optionEnv.findNarrowestEnclosingScope (sampleTree 1)
        (tokenAtOffset (sampleLinkRes "pkg".toList).toParseResult 12) ⟨0, 12⟩
      = ([.FileNode, .MessageNode], true) ∧
    GetCompletions optionEnv
      (sampleCache (sampleTree 1) (some (sampleLinkRes "pkg".toList)) "  option dep".toList false)
      (sampleParams 12)
      = .ret [newNonMessageFieldCompletionItem deprecatedOption] := by
  refine ⟨by decide, by decide, by decide⟩

/-- C4. Search-target selection: the target is the current parse result when the
latest contents are well-formed and the linked result, with the AST of the
linked model, when they are not; in `GetCompletions` the token handed to both
branches is `TokenAtOffset` of the AST of the selected target at the cursor
offset (a nil target panics). -/
theorem getCompletions_searchTarget_selection (env : Env) (c : Cache)
    (params : CompletionParams) (currentParseRes : ParseResult)
    (maybeCurrentLinkRes : Option LinkResult) (posOffset : Int) (textPrecedingCursor : Str)
    (latestAstValid : Bool)
    (hpre : Prelude c params currentParseRes maybeCurrentLinkRes posOffset
      textPrecedingCursor latestAstValid) :
    (latestAstValid = true →
      searchTarget latestAstValid currentParseRes maybeCurrentLinkRes = some currentParseRes) ∧
    (latestAstValid = false →
      searchTarget latestAstValid currentParseRes maybeCurrentLinkRes
        = maybeCurrentLinkRes.map LinkResult.toParseResult ∧
      ∀ linkRes, maybeCurrentLinkRes = some linkRes →
        ∃ target, searchTarget latestAstValid currentParseRes maybeCurrentLinkRes = some target ∧
          target.AST = linkRes.AST) ∧
    GetCompletions env c params =
      match searchTarget latestAstValid currentParseRes maybeCurrentLinkRes with
      | none => .panic
      | some target =>
        (optionCompletions env params currentParseRes maybeCurrentLinkRes
          (target.AST.TokenAtOffset posOffset) textPrecedingCursor).bind fun optionItems =>
        (literalCompletions env params target maybeCurrentLinkRes
          (target.AST.TokenAtOffset posOffset)).bind fun literalItems =>
          .ret (optionItems ++ literalItems) := by
  refine ⟨?_, ?_, ?_⟩
  · intro hv
    simp [searchTarget, hv]
  · intro hv
    refine ⟨by simp [searchTarget, hv], ?_⟩
    intro linkRes hl
    exact ⟨linkRes.toParseResult, by simp [searchTarget, hv, hl], rfl⟩
  · exact getCompletions_of_prelude env c params _ _ _ _ _ hpre

/-- Witness of C4: a request on a document whose latest contents are not
well-formed and that has a linked model. -/
theorem getCompletions_searchTarget_selection_witness :
    searchTarget false (sampleTree 1) (some (sampleLinkRes "pkg".toList))
      = (some (sampleLinkRes "pkg".toList)).map LinkResult.toParseResult ∧
    ∀ linkRes, some (sampleLinkRes "pkg".toList) = some linkRes →
      ∃ target, searchTarget false (sampleTree 1) (some (sampleLinkRes "pkg".toList))
          = some target ∧ target.AST = linkRes.AST :=
  (getCompletions_searchTarget_selection optionEnv
    (sampleCache (sampleTree 1) (some (sampleLinkRes "pkg".toList)) "  option dep".toList false)
    (sampleParams 12) (sampleTree 1) (some (sampleLinkRes "pkg".toList)) 12
    ("  option dep".toList.take 12) false
    (sampleCache_prelude _ _ _ _ 12 (by decide))).2.1 rfl

/-! ## The option-statement heuristic -/

theorem hasPrefix_iff (s p : Str) : strings.HasPrefix s p = true ↔ ∃ post, s = p ++ post := by
  induction p generalizing s with
  | nil => cases s <;> simp [strings.HasPrefix]
  | cons d p ih =>
    cases s with
    | nil => simp [strings.HasPrefix]
    | cons c s =>
      simp only [strings.HasPrefix, Bool.and_eq_true, beq_iff_eq, ih, List.cons_append,
        List.cons.injEq]
      constructor
      · rintro ⟨rfl, post, rfl⟩
        exact ⟨post, rfl, rfl⟩
      · rintro ⟨post, rfl, rfl⟩
        exact ⟨rfl, post, rfl⟩

/-- The value of `strings.LastIndex`: `-1` when `sub` does not occur in `s`, the
position of the last occurrence otherwise. -/
theorem lastIndex_spec (sub s : Str) :
    (strings.LastIndex s sub = -1 ∧ ∀ pre post, s ≠ pre ++ sub ++ post) ∨
    (∃ pre post, s = pre ++ sub ++ post ∧ strings.LastIndex s sub = (pre.length : Int) ∧
      ∀ pre' post', s = pre' ++ sub ++ post' → pre'.length ≤ pre.length) := by
  induction s with
  | nil =>
    by_cases h : strings.HasPrefix [] sub = true
    · right
      obtain ⟨post, hp⟩ := (hasPrefix_iff [] sub).1 h
      refine ⟨[], post, by simpa using hp, by simp [strings.LastIndex, h], ?_⟩
      intro pre' post' h'
      have hnil : pre' = [] := by
        cases pre' with
        | nil => rfl
        | cons a l => simp at h'
      simp [hnil]
    · left
      refine ⟨by simp [strings.LastIndex, h], ?_⟩
      intro pre post hs
      apply h
      rw [hasPrefix_iff]
      cases pre with
      | nil => exact ⟨post, by simpa using hs⟩
      | cons a l => simp at hs
  | cons c s ih =>
    rcases ih with ⟨hidx, hno⟩ | ⟨pre, post, hs, hidx, hmax⟩
    · by_cases h : strings.HasPrefix (c :: s) sub = true
      · right
        obtain ⟨post, hp⟩ := (hasPrefix_iff (c :: s) sub).1 h
        refine ⟨[], post, by simpa using hp, by simp [strings.LastIndex, hidx, h], ?_⟩
        intro pre' post' h'
        cases pre' with
        | nil => simp
        | cons a l =>
          simp only [List.cons_append, List.cons.injEq] at h'
          exact absurd h'.2 (hno l post')
      · left
        refine ⟨by simp [strings.LastIndex, hidx, h], ?_⟩
        intro pre' post' h'
        cases pre' with
        | nil =>
          apply h
          rw [hasPrefix_iff]
          exact ⟨post', by simpa using h'⟩
        | cons a l =>
          simp only [List.cons_append, List.cons.injEq] at h'
          exact absurd h'.2 (hno l post')
    · right
      refine ⟨c :: pre, post, by simp [hs], ?_, ?_⟩
      · have h0 : (0 : Int) ≤ (pre.length : Int) := Int.natCast_nonneg _
        simp only [strings.LastIndex, hidx, h0, if_true, List.length_cons]
        push_cast
        ring
      · intro pre' post' h'
        cases pre' with
        | nil => simp
        | cons a l =>
          simp only [List.cons_append, List.cons.injEq] at h'
          have := hmax l post' h'.2
          simp only [List.length_cons]
          omega

theorem contains_singleton (s : Str) (c : Char) :
    strings.Contains s [c] = true ↔ c ∈ s := by
  induction s with
  | nil => simp [strings.Contains, strings.HasPrefix]
  | cons d s ih =>
    simp only [strings.Contains, strings.HasPrefix, Bool.or_eq_true, Bool.and_eq_true,
      beq_iff_eq, ih, List.mem_cons]
    constructor
    · rintro (⟨rfl, _⟩ | h)
      · exact Or.inl rfl
      · exact Or.inr h
    · rintro (rfl | h)
      · exact Or.inl ⟨rfl, by cases s <;> trivial⟩
      · exact Or.inr h

theorem sliceFrom_append (pre rest : Str) :
    strings.sliceFrom (pre ++ rest) (pre.length : Int) = some rest := by
  unfold strings.sliceFrom strings.slice
  have h : (0 : Int) ≤ (pre.length : Int) ∧ (pre.length : Int) ≤ ((pre ++ rest).length : Int) ∧
      ((pre ++ rest).length : Int) ≤ ((pre ++ rest).length : Int) := by
    refine ⟨Int.natCast_nonneg _, ?_, le_refl _⟩
    simp
  rw [if_pos h]
  simp
  omega

/-- The heuristic when the keyword does not occur. -/
theorem optionPartialName_of_no_occurrence (t : Str)
    (hno : ∀ pre post, t ≠ pre ++ optionKeyword ++ post) :
    optionPartialName t = .ret none := by
  rcases lastIndex_spec optionKeyword t with ⟨hidx, _⟩ | ⟨pre, post, hs, _, _⟩
  · simp [optionPartialName, hidx]
  · exact absurd hs (hno pre post)

/-- The heuristic at the last occurrence of the keyword. -/
theorem optionPartialName_of_last_occurrence (t pre post : Str)
    (hs : t = pre ++ optionKeyword ++ post)
    (hidx : strings.LastIndex t optionKeyword = (pre.length : Int)) :
    optionPartialName t
      = if ';' ∈ post then .ret none else .ret (some (strings.TrimSpace post)) := by
  have hne : (pre.length : Int) ≠ -1 := by
    have := Int.natCast_nonneg pre.length
    omega
  have h1 : strings.sliceFrom t (pre.length : Int) = some (optionKeyword ++ post) := by
    rw [hs, List.append_assoc]
    exact sliceFrom_append pre (optionKeyword ++ post)
  have h2 : strings.sliceFrom t ((pre.length : Int) + (optionKeyword.length : Int))
      = some post := by
    have := sliceFrom_append (pre ++ optionKeyword) post
    rw [List.length_append] at this
    rw [hs]
    exact_mod_cast this
  have h3 : strings.Contains (optionKeyword ++ post) [';'] = decide (';' ∈ post) := by
    rw [Bool.eq_iff_iff, contains_singleton]
    simp [optionKeyword]
  unfold optionPartialName
  simp only [hidx, hne, ne_eq, not_false_eq_true, if_true, h1, h2, h3]
  by_cases hsemi : ';' ∈ post <;> simp [hsemi]

theorem suffix_of_later_occurrence (pre pre' kw post post' : Str)
    (h : pre' ++ kw ++ post' = pre ++ kw ++ post) (hle : pre'.length ≤ pre.length) :
    ∃ z, post' = z ++ post := by
  have hlen : (pre' ++ kw).length ≤ (pre ++ kw).length := by
    simp only [List.length_append]
    omega
  rcases List.append_eq_append_iff.1 h with ⟨a, ha, hb⟩ | ⟨a, ha, hb⟩
  · exact ⟨a, hb⟩
  · have : a = [] := by
      have := congrArg List.length ha
      simp only [List.length_append] at this hlen
      cases a with
      | nil => rfl
      | cons x l => simp only [List.length_cons] at this; omega
    subst this
    exact ⟨[], by simpa using hb.symm⟩

/-- The heuristic on its own: it never slices out of range; it gives a partial
name exactly when the text contains an occurrence of `option ` with no `;`
after it, the partial name being `strings.TrimSpace` of the text after the last
occurrence; a text in which every `option` is followed by `al` gives none. -/
theorem optionPartialName_spec (t : Str) :
    optionPartialName t ≠ .panic ∧
    ((∃ partialName, optionPartialName t = .ret (some partialName)) ↔
      ∃ pre post, t = pre ++ optionKeyword ++ post ∧ ';' ∉ post) ∧
    (∀ partialName, optionPartialName t = .ret (some partialName) →
      ∃ pre post, t = pre ++ optionKeyword ++ post ∧ ';' ∉ post ∧
        (∀ pre' post', t = pre' ++ optionKeyword ++ post' → pre'.length ≤ pre.length) ∧
        partialName = strings.TrimSpace post) ∧
    ((∀ pre post, t = pre ++ "option".toList ++ post → ∃ rest, post = "al".toList ++ rest) →
      optionPartialName t = .ret none) := by
  rcases lastIndex_spec optionKeyword t with ⟨_, hno⟩ | ⟨pre, post, hs, hidx, hmax⟩
  · have hnone := optionPartialName_of_no_occurrence t hno
    refine ⟨by simp [hnone], ?_, ?_, fun _ => hnone⟩
    · constructor
      · rintro ⟨p, hp⟩
        simp [hnone] at hp
      · rintro ⟨pre, post, hs, _⟩
        exact absurd hs (hno pre post)
    · intro p hp
      simp [hnone] at hp
  · have hval := optionPartialName_of_last_occurrence t pre post hs hidx
    by_cases hsemi : ';' ∈ post
    · rw [if_pos hsemi] at hval
      refine ⟨by simp [hval], ?_, ?_, fun _ => hval⟩
      · constructor
        · rintro ⟨p, hp⟩
          simp [hval] at hp
        · rintro ⟨pre', post', hs', hno'⟩
          obtain ⟨z, hz⟩ := suffix_of_later_occurrence pre pre' optionKeyword post post'
            (hs' ▸ hs) (hmax pre' post' hs')
          exact absurd (by simp [hz, hsemi]) hno'
      · intro p hp
        simp [hval] at hp
    · rw [if_neg hsemi] at hval
      refine ⟨by simp [hval], ?_, ?_, ?_⟩
      · constructor
        · intro _
          exact ⟨pre, post, hs, hsemi⟩
        · intro _
          exact ⟨_, hval⟩
      · intro p hp
        rw [hval] at hp
        injection hp with hp
        injection hp with hp
        exact ⟨pre, post, hs, hsemi, hmax, hp.symm⟩
      · intro hal
        exfalso
        have hocc : t = pre ++ "option".toList ++ (' ' :: post) := by
          rw [hs]
          simp [optionKeyword]
        obtain ⟨rest, hrest⟩ := hal pre (' ' :: post) hocc
        simp at hrest

/-- The heuristic on two texts: `option a; option (b` gives a partial name, the
last occurrence of the keyword having no `;` after it; `optional int32 x` does
not slice out of range. -/
theorem optionPartialName_spec_witness :
    (∃ partialName,
      optionPartialName " option a; option (b ".toList = .ret (some partialName)) ∧
    optionPartialName " optional int32 x".toList ≠ .panic :=
  ⟨(optionPartialName_spec " option a; option (b ".toList).2.1.2
      ⟨" option a; ".toList, "(b ".toList, by decide, by decide⟩,
    (optionPartialName_spec " optional int32 x".toList).1⟩

/-! ## The walk over the leading segments of an option path -/

theorem walkOptionsPath_append (linkRes : LinkResult) (ctx : Option MessageDescriptor)
    (xs ys : List Str) :
    walkOptionsPath linkRes ctx (xs ++ ys)
      = (walkOptionsPath linkRes ctx xs).bind fun ctx' => walkOptionsPath linkRes ctx' ys := by
  induction xs generalizing ctx with
  | nil => rfl
  | cons x xs ih =>
    simp only [List.cons_append, walkOptionsPath]
    cases hstep : walkOptionsPathStep linkRes ctx x with
    | ret v => exact ih v
    | err e => rfl
    | panic => rfl

theorem walkOptionsPathStep_of_unresolved (linkRes : LinkResult)
    (ctx : Option MessageDescriptor) (part : Str) (h : SegmentUnresolved linkRes ctx part) :
    ∃ e, walkOptionsPathStep linkRes ctx part = .err e := by
  cases h with
  | extensionNotFound part e hx hfind =>
    refine ⟨e, ?_⟩
    unfold isExtensionPart at hx
    unfold extensionTargetName at hfind
    simp only [walkOptionsPathStep, hx, if_true, hfind, Outcome.bind]
  | extensionScalar part xt hx hfind hmsg =>
    refine ⟨"no such extension ".toList ++ part, ?_⟩
    unfold isExtensionPart at hx
    unfold extensionTargetName at hfind
    simp only [walkOptionsPathStep, hx, if_true, hfind, hmsg, Outcome.bind]
  | extensionNotDeclared ctx part hx hby =>
    refine ⟨"no such extension ".toList ++ part, ?_⟩
    unfold isExtensionPart at hx
    simp only [walkOptionsPathStep, hx, if_true, hby, Outcome.bind]
  | declaredExtensionScalar ctx part xt hx hby hmsg =>
    refine ⟨"no such extension ".toList ++ part, ?_⟩
    unfold isExtensionPart at hx
    simp only [walkOptionsPathStep, hx, if_true, hby, hmsg, Outcome.bind]
  | fieldNotDeclared ctx part hx hby =>
    refine ⟨"no such field ".toList ++ part, ?_⟩
    unfold isExtensionPart at hx
    simp [walkOptionsPathStep, hx, hby, Outcome.bind]
  | fieldScalar ctx part fd hx hby hext hmsg =>
    refine ⟨"no such extension ".toList ++ part, ?_⟩
    unfold isExtensionPart at hx
    unfold FieldDescriptorOf.IsExtension at hext
    cases hc : fd.containing with
    | declaredIn n => simp [walkOptionsPathStep, hx, hby, hc, hmsg, Outcome.bind]
    | extendee m => simp [hc] at hext
  | plainWithoutContext part hx =>
    refine ⟨"no such extension ".toList ++ part, ?_⟩
    unfold isExtensionPart at hx
    simp [walkOptionsPathStep, hx, Outcome.bind]

/-- The multi-segment branch of `completeMessageOptionNames`. -/
theorem completeMessageOptionNames_of_segments (path : List Node) (name : Str)
    (linkRes : LinkResult) (hlen : 1 < (strings.Split name '.').length) :
    completeMessageOptionNames path name linkRes
      = (walkOptionsPath linkRes none (strings.Split name '.').dropLast).bind
          fun currentContext =>
            match (strings.Split name '.').getLast? with
            | none => .panic
            | some lastPart => filterByLastPart currentContext lastPart := by
  unfold completeMessageOptionNames
  have h1 : ¬ ((strings.Split name '.').length = 1 ∧ strings.HasSuffix name [')'] = false) := by
    intro h
    omega
  simp only [h1, if_false, gt_iff_lt, hlen, if_true]

/-- C7. When a leading segment of a partial name with at least two segments
fails to resolve in the context reached by the segments before it,
`completeMessageOptionNames` returns the failure of that segment and no items. -/
theorem completeMessageOptionNames_unresolved_segment (path : List Node) (name : Str)
    (linkRes : LinkResult) (pre : List Str) (part : Str) (post : List Str)
    (ctx : Option MessageDescriptor)
    (hsplit : strings.Split name '.' = pre ++ part :: post) (hpost : post ≠ [])
    (hwalk : walkOptionsPath linkRes none pre = .ret ctx)
    (hfail : SegmentUnresolved linkRes ctx part) :
    ∃ e, walkOptionsPathStep linkRes ctx part = .err e ∧
      completeMessageOptionNames path name linkRes = .err e := by
  obtain ⟨e, he⟩ := walkOptionsPathStep_of_unresolved linkRes ctx part hfail
  refine ⟨e, he, ?_⟩
  have hlen : 1 < (strings.Split name '.').length := by
    rw [hsplit]
    cases post with
    | nil => exact absurd rfl hpost
    | cons q qs =>
      simp only [List.length_append, List.length_cons]
      omega
  rw [completeMessageOptionNames_of_segments path name linkRes hlen, hsplit]
  have hdrop : (pre ++ part :: post).dropLast = pre ++ part :: post.dropLast := by
    rw [List.dropLast_append_of_ne_nil _ (by simp), List.dropLast_cons_of_ne_nil hpost]
  rw [hdrop, walkOptionsPath_append, hwalk]
  simp only [Outcome.bind, walkOptionsPath, he]

/-- Witness of C7: in `(Bar).nope.x` the segment `nope` is not a field of `foo.Opts`. -/
theorem completeMessageOptionNames_unresolved_segment_witness :
    ∃ e, walkOptionsPathStep (sampleLinkRes "foo".toList) (some optsMessage) "nope".toList
        = .err e ∧
      completeMessageOptionNames [.FileNode, .MessageNode] "(Bar).nope.x".toList
        (sampleLinkRes "foo".toList) = .err e :=
  completeMessageOptionNames_unresolved_segment [.FileNode, .MessageNode]
    "(Bar).nope.x".toList (sampleLinkRes "foo".toList) ["(Bar)".toList] "nope".toList
    ["x".toList] (some optsMessage) (by decide) (by decide) rfl
    (SegmentUnresolved.fieldNotDeclared optsMessage "nope".toList (by decide) rfl)

/-! ## Parenthesized and plain first segments -/

theorem split_ne_nil (s : Str) (sep : Char) : strings.Split s sep ≠ [] := by
  induction s with
  | nil => simp [strings.Split]
  | cons c s ih =>
    unfold strings.Split
    by_cases h : c = sep
    · simp [h]
    · simp only [h, if_false]
      cases strings.Split s sep <;> simp

theorem split_append_sep (a rest : Str) (sep : Char) (h : sep ∉ a) :
    strings.Split (a ++ sep :: rest) sep = a :: strings.Split rest sep := by
  induction a with
  | nil => simp [strings.Split]
  | cons c a ih =>
    have hc : c ≠ sep := fun hc => h (by simp [hc])
    have ha : sep ∉ a := fun ha => h (by simp [ha])
    simp only [List.cons_append, strings.Split, hc, if_false]
    change (match strings.Split (a ++ sep :: rest) sep with
      | [] => [[c]]
      | p :: ps => (c :: p) :: ps) = _
    rw [ih ha]

theorem getLast?_cons_of_ne_nil (a : Str) (l : List Str) (h : l ≠ []) :
    (a :: l).getLast? = l.getLast? := by
  cases l with
  | nil => exact absurd rfl h
  | cons b l => simp [List.getLast?]

theorem trim_parens (n : Str)
    (hhead : ∀ c, n.head? = some c → c ≠ '(' ∧ c ≠ ')')
    (hlast : ∀ c, n.getLast? = some c → c ≠ '(' ∧ c ≠ ')') :
    strings.Trim ('(' :: n ++ [')']) ['(', ')'] = n := by
  have hcut : ∀ c : Char, c ≠ '(' ∧ c ≠ ')' → (['(', ')'].contains c) = false := by
    intro c hc
    simp [hc.1, hc.2]
  cases n with
  | nil => decide
  | cons a l =>
    have ha := hcut a (hhead a rfl)
    have hfront : (('(' :: (a :: l) ++ [')']).dropWhile (fun c => ['(', ')'].contains c))
        = a :: l ++ [')'] := by
      simp only [List.cons_append, List.dropWhile_cons, ha]
      simp
    unfold strings.Trim strings.trimRightFunc
    rw [hfront]
    obtain ⟨r, b, hr⟩ : ∃ r b, (a :: l).reverse = b :: r := by
      cases hrev : (a :: l).reverse with
      | nil => simp at hrev
      | cons b r => exact ⟨r, b, rfl⟩
    have hb : (a :: l).getLast? = some b := by
      rw [← List.head?_reverse, hr]
      rfl
    have hbc := hcut b (hlast b hb)
    have : (a :: l ++ [')']).reverse = ')' :: b :: r := by
      rw [List.reverse_append, hr]
      rfl
    rw [this]
    simp only [List.dropWhile_cons, hbc]
    simp only [List.contains_cons, List.contains_nil, beq_self_eq_true, Bool.or_true,
      Bool.or_false, if_true, Bool.false_eq_true, if_false]
    rw [← hr, List.reverse_reverse]

/-- C8 (the code at the failing input). For every linked model,
`completeMessageOptionNames` on `(foo.Bar).baz` returns the failure
`no such extension (foo` and no items, although in the sample model the segment
`(foo.Bar)` resolves to the context `foo.Opts` and filtering that context by
`baz` gives the item `baz`. -/
theorem completeMessageOptionNames_qualified_extension (path : List Node)
    (linkRes : LinkResult) :
    completeMessageOptionNames path "(foo.Bar).baz".toList linkRes
      = .err "no such extension (foo".toList ∧
    walkOptionsPathStep (sampleLinkRes "pkg".toList) none "(foo.Bar)".toList
      = .ret (some optsMessage) ∧
    filterByLastPart (some optsMessage) "baz".toList
      = .ret [newNonMessageFieldCompletionItem
          (regularField "foo.Opts".toList "baz".toList (.scalar .StringKind) .Optional)] := by
  refine ⟨?_, rfl, by decide⟩
  rw [completeMessageOptionNames_of_segments path _ linkRes (by decide)]
  rfl

/-- C9. For a partial name whose first segment is `(N)` followed by further
segments, `N` being a name, free of `.` and of leading and trailing
parentheses, the extension is looked up under the package name followed by `N`;
a failed lookup is returned, a scalar extension is the failure
`no such extension (N)`, and otherwise the walk continues with the message
type of the extension as the context. -/
theorem completeMessageOptionNames_package_relative (path : List Node)
    (linkRes : LinkResult) (n rest : Str) (hdot : '.' ∉ n)
    (hhead : ∀ c, n.head? = some c → c ≠ '(' ∧ c ≠ ')')
    (hlast : ∀ c, n.getLast? = some c → c ≠ '(' ∧ c ≠ ')') :
    completeMessageOptionNames path ('(' :: n ++ ')' :: '.' :: rest) linkRes =
      match linkRes.FindExtensionByName (FullName.Append linkRes.Package n) with
      | .error e => .err e
      | .ok xt =>
        match xt.Message with
        | none => .err ("no such extension ".toList ++ ('(' :: n ++ [')']))
        | some m =>
          (walkOptionsPath linkRes (some m) (strings.Split rest '.').dropLast).bind
            fun currentContext =>
              match (strings.Split rest '.').getLast? with
              | none => .panic
              | some lastPart => filterByLastPart currentContext lastPart := by
  have hname : '(' :: n ++ ')' :: '.' :: rest = ('(' :: n ++ [')']) ++ '.' :: rest := by simp
  have hsep : '.' ∉ ('(' :: n ++ [')']) := by
    simp only [List.cons_append, List.mem_cons, List.mem_append, List.mem_singleton, not_or]
    exact ⟨by decide, hdot, by decide, by simp⟩
  have hsplit := split_append_sep ('(' :: n ++ [')']) rest '.' hsep
  have hne := split_ne_nil rest '.'
  have hlen : 1 < (strings.Split ('(' :: n ++ ')' :: '.' :: rest) '.').length := by
    rw [hname, hsplit]
    cases hs : strings.Split rest '.' with
    | nil => exact absurd hs hne
    | cons q qs => simp
  rw [completeMessageOptionNames_of_segments path _ linkRes hlen, hname, hsplit,
    List.dropLast_cons_of_ne_nil hne, getLast?_cons_of_ne_nil _ _ hne]
  have hpre : strings.HasPrefix ('(' :: n ++ [')']) ['('] = true := by
    simp [strings.HasPrefix]
  have hsuf : strings.HasSuffix ('(' :: n ++ [')']) [')'] = true := by
    simp [strings.HasSuffix, strings.HasPrefix]
  have hcont : strings.Contains n ['.'] = false := by
    rw [Bool.eq_false_iff, Ne, contains_singleton]
    exact hdot
  simp only [walkOptionsPath, walkOptionsPathStep, hpre, hsuf, Bool.and_self, if_true,
    trim_parens n hhead hlast, hcont, Bool.not_false]
  cases linkRes.FindExtensionByName (FullName.Append linkRes.Package n) with
  | error e => rfl
  | ok xt =>
    cases hm : xt.Message with
    | none => simp [Outcome.bind, hm]
    | some m => simp [Outcome.bind, hm]

/-- Witness of C9: `(Bar).baz` in package `foo` is looked up
as `foo.Bar` and completes `baz` in `foo.Opts`. -/
theorem completeMessageOptionNames_package_relative_witness :
    completeMessageOptionNames [.FileNode, .MessageNode]
        ('(' :: "Bar".toList ++ ')' :: '.' :: "baz".toList) (sampleLinkRes "foo".toList)
      = .ret [newNonMessageFieldCompletionItem
          (regularField "foo.Opts".toList "baz".toList (.scalar .StringKind) .Optional)] :=
  (completeMessageOptionNames_package_relative [.FileNode, .MessageNode]
    (sampleLinkRes "foo".toList) "Bar".toList "baz".toList (by decide) (by decide)
    (by decide)).trans (by decide)

/-- A segment with doubled parentheses: in `((Bar)).baz` every leading and
trailing parenthesis of the first segment is trimmed, so the extension looked
up is `foo.Bar`, and `baz` is completed in its message type. -/
theorem package_relative_lookup_counterexample :
    '.' ∉ "(Bar)".toList ∧
    (sampleLinkRes "foo".toList).FindExtensionByName
        (FullName.Append (sampleLinkRes "foo".toList).Package "(Bar)".toList)
      = .error "not found".toList ∧
    completeMessageOptionNames [.FileNode, .MessageNode]
        ('(' :: "(Bar)".toList ++ ')' :: '.' :: "baz".toList) (sampleLinkRes "foo".toList)
      = .ret [newNonMessageFieldCompletionItem
          (regularField "foo.Opts".toList "baz".toList (.scalar .StringKind) .Optional)] := by
  refine ⟨by decide, rfl, by decide⟩

/-- C10 (as the code behaves). For a partial name with at least two segments
whose first segment is not wrapped in parentheses, `completeMessageOptionNames`
makes no lookup: for every linked model it returns the failure
`no such extension` followed by the segment. -/
theorem completeMessageOptionNames_plain_first_segment (path : List Node) (name : Str)
    (linkRes : LinkResult) (first : Str) (rest : List Str)
    (hsplit : strings.Split name '.' = first :: rest) (hrest : rest ≠ [])
    (hplain : isExtensionPart first = false) :
    completeMessageOptionNames path name linkRes
      = .err ("no such extension ".toList ++ first) := by
  have hlen : 1 < (strings.Split name '.').length := by
    rw [hsplit]
    cases rest with
    | nil => exact absurd rfl hrest
    | cons q qs => simp
  rw [completeMessageOptionNames_of_segments path name linkRes hlen, hsplit,
    List.dropLast_cons_of_ne_nil hrest]
  unfold isExtensionPart at hplain
  simp [walkOptionsPath, walkOptionsPathStep, hplain, Outcome.bind]

/-- Witness of C10 (as the code behaves): `deprecated.x`. -/
theorem completeMessageOptionNames_plain_first_segment_witness :
    completeMessageOptionNames [.FileNode, .MessageNode] "deprecated.x".toList
        (sampleLinkRes "pkg".toList)
      = .err ("no such extension ".toList ++ "deprecated".toList) :=
  completeMessageOptionNames_plain_first_segment [.FileNode, .MessageNode]
    "deprecated.x".toList (sampleLinkRes "pkg".toList) "deprecated".toList ["x".toList]
    (by decide) (by decide) (by decide)

/-- Counterexample to C10 as stated: `features` is a declared, message-typed field
of `google.protobuf.MessageOptions` whose message type has the field
`field_presence`, and `completeMessageOptionNames` on `features.f` offers
nothing from that type: it returns the failure `no such extension features`. -/
theorem plain_first_segment_counterexample :
    featuresOption.ContainingMessageFullName = messageOptionsFullName ∧
    featuresOption.Message = some featureSetMessage ∧
    filterByLastPart (some featureSetMessage) "f".toList
      = .ret [newNonMessageFieldCompletionItem
          (regularField "google.protobuf.FeatureSet".toList "field_presence".toList
            (.scalar .Int32Kind) .Optional)] ∧
    completeMessageOptionNames [.FileNode, .MessageNode] "features.f".toList
        (sampleLinkRes "pkg".toList)
      = .err "no such extension features".toList := by
  refine ⟨by decide, rfl, by decide, by decide⟩

/-! ## Errors of the resolvers in `GetCompletions` -/

/-- A first form of the error policy: with the lookups done and a search target,
`GetCompletions` returns a list when the option branch returns a list and the
descriptor search reports no error on a non-empty scope path; and a failure of
`completeMessageOptionNames` on the partial name, in a message declaration, is
the error of `GetCompletions`. -/
theorem getCompletions_error_policy (env : Env) (c : Cache) (params : CompletionParams)
    (currentParseRes : ParseResult) (maybeCurrentLinkRes : Option LinkResult)
    (posOffset : Int) (textPrecedingCursor : Str) (latestAstValid : Bool)
    (target : ParseResult)
    (hpre : Prelude c params currentParseRes maybeCurrentLinkRes posOffset
      textPrecedingCursor latestAstValid)
    (htarget : searchTarget latestAstValid currentParseRes maybeCurrentLinkRes = some target) :
    (∀ optionItems,
      optionCompletions env params currentParseRes maybeCurrentLinkRes
        (tokenAtOffset target posOffset) textPrecedingCursor = .ret optionItems →
      (∀ path linkRes, maybeCurrentLinkRes = some linkRes →
        env.findNarrowestEnclosingScope target (tokenAtOffset target posOffset)
          params.Position = (path, true) →
        path ≠ [] ∧ ∃ desc, env.deepPathSearch path linkRes = .ok desc) →
      ∃ items, GetCompletions env c params = .ret items) ∧
    (∀ partialName linkRes path e,
      optionPartialName textPrecedingCursor = .ret (some partialName) →
      maybeCurrentLinkRes = some linkRes →
      env.findNarrowestEnclosingScope currentParseRes (tokenAtOffset target posOffset)
        params.Position = (path, true) →
      path.getLast? = some .MessageNode →
      completeMessageOptionNames path partialName linkRes = .err e →
      GetCompletions env c params = .err e) := by
  rw [getCompletions_of_prelude env c params _ _ _ _ _ hpre, htarget]
  constructor
  · intro optionItems hopt hgood
    have hlit : ∃ literalItems, literalCompletions env params target maybeCurrentLinkRes
        (tokenAtOffset target posOffset) = .ret literalItems := by
      cases hs : env.findNarrowestEnclosingScope target (tokenAtOffset target posOffset)
          params.Position with
      | mk path found =>
        cases found with
        | false => exact ⟨[], by simp only [literalCompletions, hs]⟩
        | true =>
          cases hl : maybeCurrentLinkRes with
          | none => exact ⟨[], by simp only [literalCompletions, hs]⟩
          | some linkRes =>
            obtain ⟨hne, desc, hdesc⟩ := hgood path linkRes hl hs
            simp only [literalCompletions, hs, hdesc, Outcome.ofExcept, Outcome.bind]
            cases hlast : path.getLast? with
            | none => exact absurd (List.getLast?_eq_none_iff.1 hlast) hne
            | some node =>
              cases desc with
              | none => exact ⟨[], rfl⟩
              | some d =>
                cases d with
                | message m => cases node <;> exact ⟨_, rfl⟩
                | field fd => exact ⟨[], rfl⟩
                | other n => exact ⟨[], rfl⟩
    obtain ⟨literalItems, hlit⟩ := hlit
    exact ⟨optionItems ++ literalItems, by simp only [hopt, hlit, Outcome.bind]⟩
  · intro partialName linkRes path e hname hl hs hlast hfail
    subst hl
    simp only [optionCompletions, hname, Outcome.bind, hs, completeOptionNames, hlast, hfail]

/-- The first form of the error policy on `option dep` in a message declaration
of a well-formed document: a list is returned. -/
theorem getCompletions_error_policy_witness :
    ∃ items, GetCompletions optionEnv
      (sampleCache (sampleTree 1) (some (sampleLinkRes "pkg".toList)) "  option dep".toList true)
      (sampleParams 12) = .ret items :=
  (getCompletions_error_policy optionEnv
    (sampleCache (sampleTree 1) (some (sampleLinkRes "pkg".toList)) "  option dep".toList true)
    (sampleParams 12) (sampleTree 1) (some (sampleLinkRes "pkg".toList)) 12
    ("  option dep".toList.take 12) true (sampleTree 1)
    (sampleCache_prelude _ _ _ _ 12 (by decide)) rfl).1
    [newNonMessageFieldCompletionItem deprecatedOption] (by decide)
    (fun path linkRes hl hs => by
      have hp : path = [.FileNode, .MessageNode] := by
        have := congrArg Prod.fst hs
        exact this.symm
      have hl' : linkRes = sampleLinkRes "pkg".toList := by
        injection hl with hl
        exact hl.symm
      subst hp
      subst hl'
      exact ⟨by simp, none, rfl⟩)

/-- Counterexample to C6 as stated: every lookup of the request succeeds, the
segment `nope` of `option (Bar).nope.x` is not a field of `foo.Opts`, and
`GetCompletions` returns the error `no such field nope`, not an empty list. -/
theorem unresolved_segment_error_counterexample :
    GetCompletions optionEnv
      (sampleCache (sampleTree 1) (some (sampleLinkRes "foo".toList))
        "  option (Bar).nope.x".toList true)
      (sampleParams 21) = .err "no such field nope".toList := by
  decide

/-! ## The filter by the last segment -/

theorem flatMap_ite_singleton {α β : Type} (p : α → Bool) (g : α → β) (xs : List α) :
    xs.flatMap (fun x => if p x then [g x] else []) = (xs.filter p).map g := by
  induction xs with
  | nil => rfl
  | cons x xs ih =>
    rw [List.flatMap_cons, ih]
    by_cases h : p x = true
    · simp [h]
    · simp [h]

theorem lastPartFieldItems_labels (lastPart : Str) (fld : FieldDescriptor) :
    (lastPartFieldItems lastPart fld).map (fun item => item.Label)
      = if strings.Contains fld.name lastPart then [fld.name] else [] := by
  unfold lastPartFieldItems
  by_cases h : strings.Contains fld.name lastPart = true
  · simp only [h, Bool.not_true, Bool.false_eq_true, if_false, if_true]
    split
    · rfl
    · split <;> rfl
    · rfl
  · simp [h]

theorem contains_nil_right (s : Str) : strings.Contains s [] = true := by
  cases s <;> simp [strings.Contains, strings.HasPrefix]

/-- The multi-segment branch when the segments are `leading` followed by `last`. -/
theorem completeMessageOptionNames_of_leading (path : List Node) (name : Str)
    (linkRes : LinkResult) (leading : List Str) (last : Str)
    (hsplit : strings.Split name '.' = leading ++ [last]) (hleading : leading ≠ []) :
    completeMessageOptionNames path name linkRes
      = (walkOptionsPath linkRes none leading).bind
          fun currentContext => filterByLastPart currentContext last := by
  have hlen : 1 < (strings.Split name '.').length := by
    rw [hsplit]
    cases leading with
    | nil => exact absurd rfl hleading
    | cons q qs =>
      simp only [List.length_append, List.length_cons, List.length_nil]
      omega
  rw [completeMessageOptionNames_of_segments path name linkRes hlen, hsplit,
    List.dropLast_concat, List.getLast?_concat]

/-- C11. Plain last segment: when the leading segments resolve to the context
`ctx` and the last segment `s` does not begin with `(`, the result is one item
per declared field of `ctx` whose name contains `s`, in declaration order, each
labelled with the field name; with `s` empty every field is offered. -/
theorem completeMessageOptionNames_plain_last_segment (path : List Node) (name : Str)
    (linkRes : LinkResult) (leading : List Str) (s : Str) (ctx : MessageDescriptor)
    (hsplit : strings.Split name '.' = leading ++ [s]) (hleading : leading ≠ [])
    (hwalk : walkOptionsPath linkRes none leading = .ret (some ctx))
    (hplain : strings.HasPrefix s ['('] = false) :
    ∃ items : List CompletionItem,
      completeMessageOptionNames path name linkRes = .ret items ∧
      items = ctx.Fields.flatMap (lastPartFieldItems s) ∧
      items.map (fun item => item.Label)
        = (ctx.Fields.filter (fun fld => strings.Contains fld.name s)).map (fun fld => fld.name) ∧
      (s = [] → items.map (fun item => item.Label) = ctx.Fields.map (fun fld => fld.name)) := by
  have hlabels : (ctx.Fields.flatMap (lastPartFieldItems s)).map (fun item => item.Label)
      = (ctx.Fields.filter (fun fld => strings.Contains fld.name s)).map
          (fun fld => fld.name) := by
    rw [List.map_flatMap]
    simp only [lastPartFieldItems_labels]
    exact flatMap_ite_singleton (fun fld => strings.Contains fld.name s) (fun fld => fld.name)
      ctx.Fields
  refine ⟨_, ?_, rfl, hlabels, ?_⟩
  · rw [completeMessageOptionNames_of_leading path name linkRes leading s hsplit hleading, hwalk]
    simp [Outcome.bind, filterByLastPart, hplain]
  · intro hs
    rw [hlabels, hs]
    simp [contains_nil_right]

/-- Witness of C11: `(Bar).ba` in package `foo` offers the field `baz` of `foo.Opts`. -/
theorem completeMessageOptionNames_plain_last_segment_witness :
    ∃ items : List CompletionItem,
      completeMessageOptionNames [.FileNode, .MessageNode] "(Bar).ba".toList
        (sampleLinkRes "foo".toList) = .ret items ∧
      items = optsMessage.Fields.flatMap (lastPartFieldItems "ba".toList) ∧
      items.map (fun item => item.Label)
        = (optsMessage.Fields.filter
            (fun fld => strings.Contains fld.name "ba".toList)).map (fun fld => fld.name) ∧
      ("ba".toList = [] →
        items.map (fun item => item.Label) = optsMessage.Fields.map (fun fld => fld.name)) :=
  completeMessageOptionNames_plain_last_segment [.FileNode, .MessageNode] "(Bar).ba".toList
    (sampleLinkRes "foo".toList) ["(Bar)".toList] "ba".toList optsMessage (by decide)
    (by decide) rfl (by decide)

/-- C12 (the code at the failing input). The leading segment of `(Holder).(ow`
resolves to `foo.Scope`, which declares the extension `owner`; the name `owner`
contains `ow`, and `completeMessageOptionNames` returns no item, because the
name is compared with the last segment `(ow`, opening parenthesis included. -/
theorem completeMessageOptionNames_extension_last_segment :
    walkOptionsPath extensionLinkRes none ["(Holder)".toList] = .ret (some scopeMessage) ∧
    (scopeMessage.Extensions.filter
        (fun ext => strings.Contains ext.name "ow".toList)).map (fun ext => ext.name)
      = ["owner".toList] ∧
    strings.Contains "owner".toList "(ow".toList = false ∧
    completeMessageOptionNames [.FileNode, .MessageNode] "(Holder).(ow".toList extensionLinkRes
      = .ret [] := by
  refine ⟨rfl, by decide, by decide, by decide⟩

/-! ## Single-segment option names -/

theorem split_of_no_sep (s : Str) (sep : Char) (h : sep ∉ s) : strings.Split s sep = [s] := by
  induction s with
  | nil => rfl
  | cons c s ih =>
    have hc : c ≠ sep := fun hc => h (by simp [hc])
    have hs : sep ∉ s := fun hs => h (by simp [hs])
    simp only [strings.Split, hc, if_false, ih hs]

theorem messageOptionFilter_field (wantExtension : Bool) (fd : FieldDescriptor) :
    messageOptionFilter wantExtension (.field fd) = true ↔
      fd.ContainingMessageFullName = messageOptionsFullName ∧ fd.IsExtension = wantExtension := by
  cases wantExtension <;> cases h : fd.IsExtension <;> simp [messageOptionFilter, h]

theorem mem_passingCandidates (wantExtension : Bool) (ds : List Descriptor)
    (fd : FieldDescriptor) :
    fd ∈ passingCandidates wantExtension ds ↔
      Descriptor.field fd ∈ ds ∧ fd.ContainingMessageFullName = messageOptionsFullName ∧
        fd.IsExtension = wantExtension := by
  unfold passingCandidates
  rw [List.mem_filterMap]
  constructor
  · rintro ⟨d, hd, hsome⟩
    cases d with
    | field g =>
      by_cases hg : messageOptionFilter wantExtension (.field g) = true
      · simp only [hg, if_true, Option.some.injEq] at hsome
        subst hsome
        exact ⟨hd, (messageOptionFilter_field wantExtension g).1 hg⟩
      · simp [hg] at hsome
    | message m => simp at hsome
    | other n => simp at hsome
  · rintro ⟨hd, hfilter⟩
    exact ⟨.field fd, hd, by simp [(messageOptionFilter_field wantExtension fd).2 hfilter]⟩

theorem candidatesLoop_filter (wantExtension : Bool) (ds : List Descriptor)
    (items : List CompletionItem) :
    candidatesLoop wantExtension (ds.filter (messageOptionFilter wantExtension)) items
      = .ret (items ++ (passingCandidates wantExtension ds).flatMap
          (fun fd => candidateItems fd wantExtension)) := by
  induction ds generalizing items with
  | nil => simp [candidatesLoop, passingCandidates]
  | cons d ds ih =>
    cases d with
    | field fd =>
      by_cases h : messageOptionFilter wantExtension (.field fd) = true
      · rw [List.filter_cons_of_pos h]
        simp only [candidatesLoop, ih]
        simp [passingCandidates, h, List.append_assoc]
      · rw [List.filter_cons_of_neg h, ih]
        simp [passingCandidates, h]
    | message m =>
      have h : ¬ messageOptionFilter wantExtension (.message m) = true := by
        simp [messageOptionFilter]
      rw [List.filter_cons_of_neg h, ih]
      simp [passingCandidates]
    | other n =>
      have h : ¬ messageOptionFilter wantExtension (.other n) = true := by
        simp [messageOptionFilter]
      rw [List.filter_cons_of_neg h, ih]
      simp [passingCandidates]

theorem candidateItems_labels (fd : FieldDescriptor) (wantExtension : Bool)
    (h : fd.IsExtension = wantExtension) :
    (candidateItems fd wantExtension).map (fun item => item.Label) = [fd.name] := by
  unfold candidateItems
  cases wantExtension <;> cases fd.type <;> simp [h] <;> rfl

theorem trimPrefix_of_not_hasPrefix (s p : Str) (h : strings.HasPrefix s p = false) :
    strings.TrimPrefix s p = s := by
  simp [strings.TrimPrefix, h]

/-- The single-segment branch of `completeMessageOptionNames`. -/
theorem completeMessageOptionNames_of_single (path : List Node) (p : Str)
    (linkRes : LinkResult) (hdot : '.' ∉ p) (hsuffix : strings.HasSuffix p [')'] = false) :
    completeMessageOptionNames path p linkRes
      = match linkRes.descriptorsByPrefix (strings.TrimPrefix p ['(']) with
        | .error e => .err e
        | .ok ds => .ret ((passingCandidates (strings.HasPrefix p ['(']) ds).flatMap
            (fun fd => candidateItems fd (strings.HasPrefix p ['(']))) := by
  have hquery : (if strings.HasPrefix p ['('] = true then strings.TrimPrefix p ['('] else p)
      = strings.TrimPrefix p ['('] := by
    by_cases h : strings.HasPrefix p ['('] = true
    · simp [h]
    · simp only [h, if_false]
      exact (trimPrefix_of_not_hasPrefix p ['('] (by simpa using h)).symm
  unfold completeMessageOptionNames
  simp only [split_of_no_sep p '.' hdot, List.length_singleton, hsuffix, and_self, if_true,
    hquery, LinkResult.FindDescriptorsByPrefix]
  cases linkRes.descriptorsByPrefix (strings.TrimPrefix p ['(']) with
  | error e => rfl
  | ok ds => simp [Outcome.ofExcept, Outcome.bind, candidatesLoop_filter]

/-- C13. Single-segment option names: for a partial name `p` without `.` that
does not end with `)`, the index is queried with `p` stripped of one leading
`(`; the result is one item per candidate that is a field of
`google.protobuf.MessageOptions` and is an extension exactly when `p` begins
with `(`, in index order, labelled with the field name. -/
theorem completeMessageOptionNames_single_segment (path : List Node) (p : Str)
    (linkRes : LinkResult) (ds : List Descriptor) (hdot : '.' ∉ p)
    (hsuffix : strings.HasSuffix p [')'] = false)
    (hindex : linkRes.descriptorsByPrefix (strings.TrimPrefix p ['(']) = .ok ds) :
    ∃ (sources : List FieldDescriptor) (items : List CompletionItem),
      completeMessageOptionNames path p linkRes = .ret items ∧
      sources = passingCandidates (strings.HasPrefix p ['(']) ds ∧
      (∀ fd, fd ∈ sources ↔
        Descriptor.field fd ∈ ds ∧ fd.ContainingMessageFullName = messageOptionsFullName ∧
          fd.IsExtension = strings.HasPrefix p ['(']) ∧
      items = sources.flatMap (fun fd => candidateItems fd (strings.HasPrefix p ['('])) ∧
      items.map (fun item => item.Label) = sources.map (fun fd => fd.name) := by
  refine ⟨_, _, ?_, rfl, mem_passingCandidates _ ds, rfl, ?_⟩
  · rw [completeMessageOptionNames_of_single path p linkRes hdot hsuffix, hindex]
  · rw [List.map_flatMap]
    have hone : ∀ fd ∈ passingCandidates (strings.HasPrefix p ['(']) ds,
        (candidateItems fd (strings.HasPrefix p ['('])).map (fun item => item.Label)
          = [fd.name] := by
      intro fd hfd
      exact candidateItems_labels fd _ ((mem_passingCandidates _ ds fd).1 hfd).2.2
    generalize passingCandidates (strings.HasPrefix p ['(']) ds = sources at hone
    induction sources with
    | nil => rfl
    | cons fd rest ih =>
      rw [List.flatMap_cons, hone fd (by simp), ih (fun g hg => hone g (by simp [hg]))]
      rfl

/-- Witness of C13: `(ow` surfaces exactly the extension `owner`. -/
theorem completeMessageOptionNames_single_segment_witness :
    ∃ (sources : List FieldDescriptor) (items : List CompletionItem),
      completeMessageOptionNames [.FileNode, .MessageNode] "(ow".toList extensionLinkRes
        = .ret items ∧
      sources = passingCandidates (strings.HasPrefix "(ow".toList ['('])
        [.message scopeMessage, .field ownerExtension] ∧
      (∀ fd, fd ∈ sources ↔
        Descriptor.field fd ∈ [Descriptor.message scopeMessage, .field ownerExtension] ∧
          fd.ContainingMessageFullName = messageOptionsFullName ∧
          fd.IsExtension = strings.HasPrefix "(ow".toList ['(']) ∧
      items = sources.flatMap
        (fun fd => candidateItems fd (strings.HasPrefix "(ow".toList ['('])) ∧
      items.map (fun item => item.Label) = sources.map (fun fd => fd.name) :=
  completeMessageOptionNames_single_segment [.FileNode, .MessageNode] "(ow".toList
    extensionLinkRes [.message scopeMessage, .field ownerExtension] (by decide) (by decide) rfl

/-! ## Rendering of extension items -/

theorem contains_infix (s sub : Str) (h : strings.Contains s sub = true) :
    ∃ pre post, s = pre ++ sub ++ post := by
  induction s with
  | nil =>
    obtain ⟨post, hp⟩ := (hasPrefix_iff [] sub).1 (by simpa [strings.Contains] using h)
    exact ⟨[], post, by simpa using hp⟩
  | cons c s ih =>
    simp only [strings.Contains, Bool.or_eq_true] at h
    rcases h with h | h
    · obtain ⟨post, hp⟩ := (hasPrefix_iff (c :: s) sub).1 h
      exact ⟨[], post, by simpa using hp⟩
    · obtain ⟨pre, post, hs⟩ := ih h
      exact ⟨c :: pre, post, by simp [hs]⟩

theorem lastPartExtensionItems_of_paren (last : Str) (ext : FieldDescriptor)
    (hlast : strings.HasPrefix last ['('] = true) (hname : '(' ∉ ext.name) :
    lastPartExtensionItems last ext = [] := by
  have hno : strings.Contains ext.name last = false := by
    rw [Bool.eq_false_iff]
    intro hc
    obtain ⟨pre, post, hs⟩ := contains_infix ext.name last hc
    obtain ⟨rest, hrest⟩ := (hasPrefix_iff last ['(']).1 hlast
    apply hname
    rw [hs, hrest]
    simp
  simp [lastPartExtensionItems, hno]

/-- The single-segment sibling and well-formed contexts. In the single-segment
branch an extension is a candidate only when the partial name begins with `(`, and
its item is `n)` with the commit character `.` for a message-typed extension
and `n) = ${0};` in snippet format for a scalar one, so the text does not begin
with `(`. In the multi-segment branch no extension item is returned for a
well-formed context: a last segment that begins with `(` gives no item, and a
plain last segment gives items of the declared fields, none an extension. -/
theorem completeMessageOptionNames_extension_rendering (path : List Node) (p : Str)
    (linkRes : LinkResult) :
    (∀ ds fd, '.' ∉ p → strings.HasSuffix p [')'] = false →
      linkRes.descriptorsByPrefix (strings.TrimPrefix p ['(']) = .ok ds →
      fd ∈ passingCandidates (strings.HasPrefix p ['(']) ds → fd.IsExtension = true →
      '(' ∉ fd.name →
      completeMessageOptionNames path p linkRes
        = .ret ((passingCandidates (strings.HasPrefix p ['(']) ds).flatMap
            (fun g => candidateItems g (strings.HasPrefix p ['(']))) ∧
      strings.HasPrefix p ['('] = true ∧
      ∃ item, candidateItems fd (strings.HasPrefix p ['(']) = [item] ∧
        item.Label = fd.name ∧
        strings.HasPrefix item.InsertText ['('] = false ∧
        (∀ m, fd.type = .message m →
          item.InsertText = fd.name ++ [')'] ∧ item.CommitCharacters = [['.']]) ∧
        (∀ k, fd.type = .scalar k →
          item.InsertText = fd.name ++ ") = $\x7b0\x7d;".toList ∧
          item.InsertTextFormat = some .SnippetTextFormat)) ∧
    (∀ leading last ctx, strings.Split p '.' = leading ++ [last] → leading ≠ [] →
      walkOptionsPath linkRes none leading = .ret (some ctx) → ContextWellFormed ctx →
      (strings.HasPrefix last ['('] = true →
        completeMessageOptionNames path p linkRes = .ret []) ∧
      (strings.HasPrefix last ['('] = false →
        completeMessageOptionNames path p linkRes
          = .ret (ctx.Fields.flatMap (lastPartFieldItems last)) ∧
        ∀ fld ∈ ctx.Fields, fld.IsExtension = false)) := by
  constructor
  · intro ds fd hdot hsuffix hindex hfd hext hname
    have hwant : strings.HasPrefix p ['('] = true := by
      rw [← ((mem_passingCandidates _ ds fd).1 hfd).2.2]
      exact hext
    refine ⟨?_, hwant, ?_⟩
    · rw [completeMessageOptionNames_of_single path p linkRes hdot hsuffix, hindex]
    · have hhead : ∀ rest : Str,
          strings.HasPrefix (fd.name ++ ')' :: rest) ['('] = false := by
        intro rest
        cases hn : fd.name with
        | nil => simp [strings.HasPrefix]
        | cons a l =>
          have ha : a ≠ '(' := fun ha => hname (by simp [hn, ha])
          simp [strings.HasPrefix, ha]
      rw [hwant]
      cases ht : fd.type with
      | scalar k =>
        refine ⟨newExtensionNonMessageFieldCompletionItem fd false, ?_, rfl, ?_, ?_, ?_⟩
        · simp [candidateItems, ht, hext]
        · exact hhead _
        · intro m hm
          simp at hm
        · intro k' _
          exact ⟨rfl, rfl⟩
      | message m =>
        refine ⟨newExtensionFieldCompletionItem fd false, ?_, rfl, ?_, ?_, ?_⟩
        · simp [candidateItems, ht, hext]
        · exact hhead _
        · intro m' _
          exact ⟨rfl, rfl⟩
        · intro k hk
          simp at hk
      | group m =>
        refine ⟨newExtensionNonMessageFieldCompletionItem fd false, ?_, rfl, ?_, ?_, ?_⟩
        · simp [candidateItems, ht, hext]
        · exact hhead _
        · intro m' hm
          simp at hm
        · intro k hk
          simp at hk
  · intro leading last ctx hsplit hleading hwalk hwf
    have hres := completeMessageOptionNames_of_leading path p linkRes leading last hsplit hleading
    rw [hwalk] at hres
    constructor
    · intro hparen
      rw [hres]
      simp only [Outcome.bind, filterByLastPart, hparen, if_true]
      congr 1
      rw [List.flatMap_eq_nil_iff]
      intro ext hmem
      exact lastPartExtensionItems_of_paren last ext hparen (hwf.2 ext hmem)
    · intro hplain
      refine ⟨?_, hwf.1⟩
      rw [hres]
      simp [Outcome.bind, filterByLastPart, hplain]

/-- The single-segment sibling on `(ow`: the scalar extension `owner` is rendered
`owner) = ${0};`; for `(Holder).(ow` and the well-formed context `foo.Scope`
no item is returned. -/
theorem completeMessageOptionNames_extension_rendering_witness :
    (∃ item, candidateItems ownerExtension (strings.HasPrefix "(ow".toList ['(']) = [item] ∧
      item.Label = ownerExtension.name ∧
      strings.HasPrefix item.InsertText ['('] = false ∧
      (∀ m, ownerExtension.type = .message m →
        item.InsertText = ownerExtension.name ++ [')'] ∧ item.CommitCharacters = [['.']]) ∧
      (∀ k, ownerExtension.type = .scalar k →
        item.InsertText = ownerExtension.name ++ ") = $\x7b0\x7d;".toList ∧
        item.InsertTextFormat = some .SnippetTextFormat)) ∧
    completeMessageOptionNames [.FileNode, .MessageNode] "(Holder).(ow".toList extensionLinkRes
      = .ret [] :=
  ⟨((completeMessageOptionNames_extension_rendering [.FileNode, .MessageNode] "(ow".toList
      extensionLinkRes).1 [.message scopeMessage, .field ownerExtension] ownerExtension
      (by decide) (by decide) rfl
      ((mem_passingCandidates _ _ _).2 ⟨by simp, rfl, rfl⟩)
      rfl (by decide)).2.2,
    ((completeMessageOptionNames_extension_rendering [.FileNode, .MessageNode]
      "(Holder).(ow".toList extensionLinkRes).2 ["(Holder)".toList] "(ow".toList scopeMessage
      (by decide) (by decide) rfl
      ⟨by simp [scopeMessage, MessageDescriptor.Fields, labelsField, regularField,
          FieldDescriptorOf.IsExtension],
        by simp [scopeMessage, MessageDescriptor.Extensions, ownerExtension]⟩).1 (by decide)⟩

/-! ## The rendering of fields and their type detail -/

/-- C15. The rendering table of `fieldCompletion`: the label is the field name;
a repeated field gets the list snippet, a singular message-typed field that is
not a map entry the message snippet, both in snippet format with adjusted
indentation, and a singular scalar field `n: ` with no snippet format; the
range of the edit is the given range. -/
theorem fieldCompletion_rendering (fld : FieldDescriptor) (rng : Range) :
    (fieldCompletion fld rng).Label = fld.name ∧
    (fld.cardinality = .Repeated →
      (fieldCompletion fld rng).TextEdit
        = some ⟨rng, fld.name ++ ": [\n  $\x7b0\x7d\n]".toList⟩ ∧
      (fieldCompletion fld rng).InsertTextFormat = some .SnippetTextFormat ∧
      (fieldCompletion fld rng).InsertTextMode = some .AdjustIndentation) ∧
    (fld.cardinality ≠ .Repeated → ∀ m, fld.type = .message m → m.IsMapEntry = false →
      (fieldCompletion fld rng).TextEdit
        = some ⟨rng, fld.name ++ ": \x7b\n  $\x7b0\x7d\n\x7d".toList⟩ ∧
      (fieldCompletion fld rng).InsertTextFormat = some .SnippetTextFormat ∧
      (fieldCompletion fld rng).InsertTextMode = some .AdjustIndentation) ∧
    (fld.cardinality ≠ .Repeated → ∀ k, fld.type = .scalar k →
      (fieldCompletion fld rng).TextEdit = some ⟨rng, fld.name ++ ": ".toList⟩ ∧
      (fieldCompletion fld rng).InsertTextFormat = none) := by
  refine ⟨fieldCompletion_Label fld rng, ?_, ?_, ?_⟩
  · intro hc
    simp [fieldCompletion, hc]
  · intro hc m hm hmap
    cases hcard : fld.cardinality with
    | Repeated => exact absurd hcard hc
    | Optional => simp [fieldCompletion, hcard, hm, hmap]
    | Required => simp [fieldCompletion, hcard, hm, hmap]
  · intro hc k hk
    cases hcard : fld.cardinality with
    | Repeated => exact absurd hcard hc
    | Optional => simp [fieldCompletion, hcard, hk]
    | Required => simp [fieldCompletion, hcard, hk]

/-- Witness of C15: the repeated field `c` and the singular scalar field `a` of `pkg.M`. -/
theorem fieldCompletion_rendering_witness :
    ((fieldCompletion (regularField "pkg.M".toList "c".toList (.scalar .Int32Kind) .Repeated)
        ⟨⟨0, 6⟩, ⟨0, 6⟩⟩).TextEdit
      = some ⟨⟨⟨0, 6⟩, ⟨0, 6⟩⟩, "c".toList ++ ": [\n  $\x7b0\x7d\n]".toList⟩ ∧
      (fieldCompletion (regularField "pkg.M".toList "c".toList (.scalar .Int32Kind) .Repeated)
        ⟨⟨0, 6⟩, ⟨0, 6⟩⟩).InsertTextFormat = some .SnippetTextFormat ∧
      (fieldCompletion (regularField "pkg.M".toList "c".toList (.scalar .Int32Kind) .Repeated)
        ⟨⟨0, 6⟩, ⟨0, 6⟩⟩).InsertTextMode = some .AdjustIndentation) ∧
    ((fieldCompletion (regularField "pkg.M".toList "a".toList (.scalar .Int32Kind) .Optional)
        ⟨⟨0, 6⟩, ⟨0, 6⟩⟩).TextEdit
      = some ⟨⟨⟨0, 6⟩, ⟨0, 6⟩⟩, "a".toList ++ ": ".toList⟩ ∧
      (fieldCompletion (regularField "pkg.M".toList "a".toList (.scalar .Int32Kind) .Optional)
        ⟨⟨0, 6⟩, ⟨0, 6⟩⟩).InsertTextFormat = none) :=
  ⟨(fieldCompletion_rendering
      (regularField "pkg.M".toList "c".toList (.scalar .Int32Kind) .Repeated)
      ⟨⟨0, 6⟩, ⟨0, 6⟩⟩).2.1 rfl,
    (fieldCompletion_rendering
      (regularField "pkg.M".toList "a".toList (.scalar .Int32Kind) .Optional)
      ⟨⟨0, 6⟩, ⟨0, 6⟩⟩).2.2.2 (by decide) .Int32Kind rfl⟩

/-- The two loops of the multi-segment branch, one field at a time. For a map
field with key field `k` and value field `v`, each loop renders it with the body
`n = {key: ${1:K}, value: ${2:V}};` in snippet format, `K` and `V` being the
type details of `k` and `v`; `fieldCompletion` renders the field, when
repeated, as the list snippet `n: [...]` in a text edit and sets no insertion
text. -/
theorem map_field_rendering (fld : FieldDescriptor) (entryName : Str)
    (k v : FieldDescriptor) (htype : fld.type = .message (.mapEntry entryName k v)) :
    (∀ lastPart, strings.Contains fld.name lastPart = true →
      ∃ item, lastPartFieldItems lastPart fld = [item] ∧
        lastPartExtensionItems lastPart fld = [item] ∧
        item.InsertText = fld.name ++ " = \x7bkey: $\x7b1:".toList ++ fieldTypeDetail k ++
          "\x7d, value: $\x7b2:".toList ++ fieldTypeDetail v ++ "\x7d\x7d;".toList ∧
        item.InsertTextFormat = some .SnippetTextFormat) ∧
    (∀ rng, fld.cardinality = .Repeated →
      (fieldCompletion fld rng).TextEdit
        = some ⟨rng, fld.name ++ ": [\n  $\x7b0\x7d\n]".toList⟩ ∧
      (fieldCompletion fld rng).InsertText = []) := by
  constructor
  · intro lastPart hc
    refine ⟨newMapFieldCompletionItem fld k v, ?_, ?_, rfl, rfl⟩
    · simp [lastPartFieldItems, hc, htype]
    · simp [lastPartExtensionItems, hc, htype]
  · intro rng hcard
    simp [fieldCompletion, hcard]

/-- The two loops on `map<string, string> labels` and the segment `la`. -/
theorem map_field_rendering_witness :
    ∃ item, lastPartFieldItems "la".toList labelsField = [item] ∧
      lastPartExtensionItems "la".toList labelsField = [item] ∧
      item.InsertText = labelsField.name ++ " = \x7bkey: $\x7b1:".toList ++
        fieldTypeDetail
          (regularField "pkg.M.LabelsEntry".toList "key".toList (.scalar .StringKind) .Optional) ++
        "\x7d, value: $\x7b2:".toList ++
        fieldTypeDetail
          (regularField "pkg.M.LabelsEntry".toList "value".toList (.scalar .StringKind)
            .Optional) ++ "\x7d\x7d;".toList ∧
      item.InsertTextFormat = some .SnippetTextFormat :=
  (map_field_rendering labelsField "pkg.M.LabelsEntry".toList
    (regularField "pkg.M.LabelsEntry".toList "key".toList (.scalar .StringKind) .Optional)
    (regularField "pkg.M.LabelsEntry".toList "value".toList (.scalar .StringKind) .Optional)
    rfl).1 "la".toList (by decide)

/-- The item of `fieldCompletion` for the map field `map<string, string> labels`:
it has no insertion text and the text edit
`labels: [...]`, not the body `labels = {key: ${1:string}, value: ${2:string}};`. -/
theorem map_field_literal_counterexample :
    (labelsField.MapKey.map fieldTypeDetail = some "string".toList ∧
      labelsField.MapValue.map fieldTypeDetail = some "string".toList) ∧
    (fieldCompletion labelsField ⟨⟨0, 1⟩, ⟨0, 1⟩⟩).InsertText = [] ∧
    (fieldCompletion labelsField ⟨⟨0, 1⟩, ⟨0, 1⟩⟩).TextEdit
      = some ⟨⟨⟨0, 1⟩, ⟨0, 1⟩⟩, "labels: [\n  $\x7b0\x7d\n]".toList⟩ ∧
    "labels: [\n  $\x7b0\x7d\n]".toList
      ≠ "labels = \x7bkey: $\x7b1:string\x7d, value: $\x7b2:string\x7d\x7d;".toList := by
  refine ⟨⟨by decide, by decide⟩, by decide, by decide, by decide⟩

/-- C17 (as the code behaves). For an extension field: when it is message-typed
and not a map, `fieldTypeDetail` is the full name with its last component in
parentheses; when it is scalar, `fieldTypeDetail` is the name of its kind. -/
theorem fieldTypeDetail_extension (fld : FieldDescriptor) (hext : fld.IsExtension = true) :
    (∀ m, fld.type = .message m → m.IsMapEntry = false →
      fieldTypeDetail fld = FullName.Append (FullName.Parent fld.fullName)
        ("(".toList ++ FullName.Name fld.fullName ++ ")".toList)) ∧
    (∀ k, fld.type = .scalar k → fieldTypeDetail fld = Kind.String (.scalar k)) := by
  constructor
  · intro m hm hmap
    cases m with
    | mapEntry n k v => simp [MessageDescriptor.IsMapEntry] at hmap
    | message n fs xs => simp [fieldTypeDetail, hm, hext]
  · intro k hk
    simp [fieldTypeDetail, hk]

/-- Witness of C17 (as the code behaves): the message-typed extension `foo.Holder`
has the detail `foo.(Holder)`. -/
theorem fieldTypeDetail_extension_witness :
    fieldTypeDetail holderExtension = "foo.(Holder)".toList :=
  ((fieldTypeDetail_extension holderExtension rfl).1 scopeMessage rfl rfl).trans (by decide)

/-- Counterexample to C17 as stated: the scalar extension `owner` has the detail
`string`, not its qualified name in parentheses. -/
theorem scalar_extension_detail_counterexample :
    ownerExtension.IsExtension = true ∧ fieldTypeDetail ownerExtension = "string".toList := by
  refine ⟨by decide, by decide⟩

/-- C18 (the code at the failing input). For the map field
`map<string, string> labels` of `pkg.M`, whose key and value have the type
detail `string`, `fieldTypeDetail` is built from the full names of the key and
value fields of the entry. -/
theorem fieldTypeDetail_map_field :
    labelsField.MapKey.map fieldTypeDetail = some "string".toList ∧
    labelsField.MapValue.map fieldTypeDetail = some "string".toList ∧
    fieldTypeDetail labelsField
      = "map<pkg.M.LabelsEntry.key, pkg.M.LabelsEntry.value>".toList := by
  refine ⟨by decide, by decide, by decide⟩

/-! ## Walk safety and the absent linked model -/

theorem walkOptionsPathStep_some_or_err (linkRes : LinkResult)
    (ctx : Option MessageDescriptor) (part : Str) :
    (∃ m, walkOptionsPathStep linkRes ctx part = .ret (some m)) ∨
      (∃ e, walkOptionsPathStep linkRes ctx part = .err e) := by
  have hfinal : ∀ next : Outcome (Option MessageDescriptor), next ≠ .panic →
      (∃ m, (next.bind fun c =>
          match c with
          | none => Outcome.err ("no such extension ".toList ++ part)
          | some m => Outcome.ret (some m)) = .ret (some m)) ∨
      (∃ e, (next.bind fun c =>
          match c with
          | none => Outcome.err ("no such extension ".toList ++ part)
          | some m => Outcome.ret (some m)) = .err e) := by
    intro next hnext
    cases next with
    | panic => exact absurd rfl hnext
    | err e => exact Or.inr ⟨e, rfl⟩
    | ret c =>
      cases c with
      | none => exact Or.inr ⟨_, rfl⟩
      | some m => exact Or.inl ⟨m, rfl⟩
  unfold walkOptionsPathStep
  apply hfinal
  by_cases hx : (strings.HasPrefix part ['('] && strings.HasSuffix part [')']) = true
  · simp only [hx, if_true]
    cases ctx with
    | none =>
      simp only
      cases linkRes.FindExtensionByName _ <;> simp
    | some c =>
      simp only
      cases ByName c.Extensions (strings.Trim part ['(', ')']) <;> simp
  · have hx' : (strings.HasPrefix part ['('] && strings.HasSuffix part [')']) = false :=
      Bool.eq_false_iff.2 hx
    simp only [hx', Bool.false_eq_true, if_false]
    cases ctx with
    | none => simp
    | some c =>
      simp only
      cases ByName c.Fields part with
      | none => simp
      | some fd =>
        simp only
        split <;> simp

theorem walkOptionsPath_some_or_err (linkRes : LinkResult) (ctx : Option MessageDescriptor)
    (parts : List Str) (hparts : parts ≠ []) :
    (∃ m, walkOptionsPath linkRes ctx parts = .ret (some m)) ∨
      (∃ e, walkOptionsPath linkRes ctx parts = .err e) := by
  induction parts generalizing ctx with
  | nil => exact absurd rfl hparts
  | cons part rest ih =>
    rcases walkOptionsPathStep_some_or_err linkRes ctx part with ⟨m, hm⟩ | ⟨e, he⟩
    · cases rest with
      | nil => exact Or.inl ⟨m, by simp [walkOptionsPath, hm, Outcome.bind]⟩
      | cons q qs =>
        have := ih (some m) (by simp)
        simpa [walkOptionsPath, hm, Outcome.bind] using this
    · exact Or.inr ⟨e, by simp [walkOptionsPath, he, Outcome.bind]⟩

theorem filterByLastPart_some (ctx : MessageDescriptor) (lastPart : Str) :
    ∃ items, filterByLastPart (some ctx) lastPart = .ret items := by
  unfold filterByLastPart
  by_cases h : strings.HasPrefix lastPart ['('] = true
  · refine ⟨ctx.Extensions.flatMap (lastPartExtensionItems lastPart), ?_⟩
    simp only [h, if_true]
  · refine ⟨ctx.Fields.flatMap (lastPartFieldItems lastPart), ?_⟩
    simp only [h]
    rfl

/-- C19. Walk safety of `completeMessageOptionNames`: for every partial name the
function returns a list or a failure and never panics; the segment list has a
last element; and when there are at least two segments and the walk over the
leading ones returns no failure, the context handed to the final filter is
present. -/
theorem completeMessageOptionNames_walk_safety (path : List Node) (name : Str)
    (linkRes : LinkResult) :
    completeMessageOptionNames path name linkRes ≠ .panic ∧
    (strings.Split name '.').getLast? ≠ none ∧
    (1 < (strings.Split name '.').length →
      ∀ ctx, walkOptionsPath linkRes none (strings.Split name '.').dropLast = .ret ctx →
        ctx ≠ none) := by
  have hlast : (strings.Split name '.').getLast? ≠ none := by
    rw [Ne, List.getLast?_eq_none_iff]
    exact split_ne_nil name '.'
  have hdrop : 1 < (strings.Split name '.').length →
      (strings.Split name '.').dropLast ≠ [] := by
    intro hlen hnil
    have := congrArg List.length hnil
    simp only [List.length_dropLast, List.length_nil] at this
    omega
  refine ⟨?_, hlast, ?_⟩
  · by_cases h1 : (strings.Split name '.').length = 1 ∧ strings.HasSuffix name [')'] = false
    · unfold completeMessageOptionNames
      simp only [h1, and_self, if_true, LinkResult.FindDescriptorsByPrefix]
      cases linkRes.descriptorsByPrefix _ with
      | error e => simp [Outcome.ofExcept, Outcome.bind]
      | ok ds => simp [Outcome.ofExcept, Outcome.bind, candidatesLoop_filter]
    · by_cases h2 : 1 < (strings.Split name '.').length
      · rw [completeMessageOptionNames_of_segments path name linkRes h2]
        rcases walkOptionsPath_some_or_err linkRes none _ (hdrop h2) with ⟨m, hm⟩ | ⟨e, he⟩
        · rw [hm]
          cases hl : (strings.Split name '.').getLast? with
          | none => exact absurd hl hlast
          | some lastPart =>
            obtain ⟨items, hitems⟩ := filterByLastPart_some m lastPart
            simp [Outcome.bind, hitems]
        · rw [he]
          simp [Outcome.bind]
      · unfold completeMessageOptionNames
        simp [h1, h2]
  · intro hlen ctx hctx
    rcases walkOptionsPath_some_or_err linkRes none _ (hdrop hlen) with ⟨m, hm⟩ | ⟨e, he⟩
    · rw [hm] at hctx
      injection hctx with hctx
      rw [← hctx]
      simp
    · rw [he] at hctx
      cases hctx

/-- Witness of C19: the partial name `(Bar)..(x.` with an empty segment and an
unmatched parenthesis. -/
theorem completeMessageOptionNames_walk_safety_witness :
    completeMessageOptionNames [.FileNode, .MessageNode] "(Bar)..(x.".toList
        (sampleLinkRes "foo".toList) ≠ .panic ∧
    ∀ ctx, walkOptionsPath (sampleLinkRes "foo".toList) none
        (strings.Split "(Bar).ba".toList '.').dropLast = .ret ctx → ctx ≠ none :=
  ⟨(completeMessageOptionNames_walk_safety [.FileNode, .MessageNode] "(Bar)..(x.".toList
      (sampleLinkRes "foo".toList)).1,
    (completeMessageOptionNames_walk_safety [.FileNode, .MessageNode] "(Bar).ba".toList
      (sampleLinkRes "foo".toList)).2.2 (by decide)⟩

theorem optionPartialName_ret (t : Str) : ∃ r, optionPartialName t = .ret r := by
  rcases lastIndex_spec optionKeyword t with ⟨_, hno⟩ | ⟨pre, post, hs, hidx, _⟩
  · exact ⟨none, optionPartialName_of_no_occurrence t hno⟩
  · rw [optionPartialName_of_last_occurrence t pre post hs hidx]
    by_cases hsemi : ';' ∈ post
    · exact ⟨none, by simp [hsemi]⟩
    · exact ⟨some (strings.TrimSpace post), by simp [hsemi]⟩

/-- C20 (the code with no linked model). For a request whose lookups succeed and
whose snapshot has no linked model: when the latest contents are well-formed
`GetCompletions` returns the empty list; when they are not, the search target
is the nil linked result and `GetCompletions` panics at `searchTarget.AST()`. -/
theorem getCompletions_absent_linked_model (env : Env) (c : Cache)
    (params : CompletionParams) (currentParseRes : ParseResult) (posOffset : Int)
    (textPrecedingCursor : Str) :
    (Prelude c params currentParseRes none posOffset textPrecedingCursor true →
      GetCompletions env c params = .ret []) ∧
    (Prelude c params currentParseRes none posOffset textPrecedingCursor false →
      GetCompletions env c params = .panic) := by
  constructor
  · intro hpre
    rw [getCompletions_of_prelude env c params _ _ _ _ _ hpre]
    obtain ⟨r, hr⟩ := optionPartialName_ret textPrecedingCursor
    have hopt : ∀ tok, optionCompletions env params currentParseRes none tok
        textPrecedingCursor = .ret [] := by
      intro tok
      cases r <;> simp [optionCompletions, hr, Outcome.bind]
    have hlit : ∀ target tok, literalCompletions env params target none tok = .ret [] := by
      intro target tok
      unfold literalCompletions
      split
      · rename_i heq
        simp at heq
      · rfl
    simp [searchTarget, hopt, hlit, Outcome.bind]
  · intro hpre
    rw [getCompletions_of_prelude env c params _ _ _ _ _ hpre]
    simp [searchTarget]

/-- Witness of C20 (the code with no linked model): the document `  option dep`
with no linked model, well-formed and not well-formed. -/
theorem getCompletions_absent_linked_model_witness :
    GetCompletions optionEnv (sampleCache (sampleTree 1) none "  option dep".toList true)
      (sampleParams 12) = .ret [] ∧
    GetCompletions optionEnv (sampleCache (sampleTree 1) none "  option dep".toList false)
      (sampleParams 12) = .panic :=
  ⟨(getCompletions_absent_linked_model optionEnv
      (sampleCache (sampleTree 1) none "  option dep".toList true) (sampleParams 12)
      (sampleTree 1) 12 ("  option dep".toList.take 12)).1
      (sampleCache_prelude _ _ _ _ 12 (by decide)),
    (getCompletions_absent_linked_model optionEnv
      (sampleCache (sampleTree 1) none "  option dep".toList false) (sampleParams 12)
      (sampleTree 1) 12 ("  option dep".toList.take 12)).2
      (sampleCache_prelude _ _ _ _ 12 (by decide))⟩

/-! ## Reading a generated file -/

theorem copy_count (dst src : List Byte) : (copy dst src).1 = min dst.length src.length := rfl

theorem copy_length (dst src : List Byte) : (copy dst src).2.length = dst.length := by
  simp only [copy, List.length_append, List.length_take, List.length_drop]
  omega

theorem copy_take (dst src : List Byte) :
    (copy dst src).2.take (copy dst src).1 = src.take (copy dst src).1 := by
  have hlen : (src.take (min dst.length src.length)).length = min dst.length src.length := by
    simp only [List.length_take]
    omega
  simp only [copy]
  rw [List.take_left' hlen]

theorem copy_drop (dst src : List Byte) :
    (copy dst src).2.drop (copy dst src).1 = dst.drop (copy dst src).1 := by
  have hlen : (src.take (min dst.length src.length)).length = min dst.length src.length := by
    simp only [List.length_take]
    omega
  simp only [copy]
  rw [List.drop_left' hlen]

/-- C21. `GeneratedFile.Read` returns the smaller of the two lengths and a nil
error, puts that many leading bytes of `Content` at the start of the buffer,
leaves the rest of the buffer and the file unchanged; a second read into a
buffer of the same length gives the same count and the same bytes; with an
empty `Content` it returns `0` and a nil error, never end-of-file. -/
theorem generatedFile_read (g : GeneratedFile) (p : List Byte) :
    (g.Read p).n = min p.length g.Content.length ∧
    (g.Read p).err = none ∧
    (g.Read p).p.length = p.length ∧
    (g.Read p).p.take (g.Read p).n = g.Content.take (g.Read p).n ∧
    (g.Read p).p.drop (g.Read p).n = p.drop (g.Read p).n ∧
    (g.Read p).g = g ∧
    (∀ q : List Byte, q.length = p.length →
      ((g.Read p).g.Read q).n = (g.Read p).n ∧
      ((g.Read p).g.Read q).err = none ∧
      ((g.Read p).g.Read q).p.take ((g.Read p).g.Read q).n
        = (g.Read p).p.take (g.Read p).n) ∧
    (g.Content = [] → (g.Read p).n = 0 ∧ (g.Read p).err = none) := by
  refine ⟨rfl, rfl, copy_length p g.Content, copy_take p g.Content, copy_drop p g.Content,
    rfl, ?_, ?_⟩
  · intro q hq
    have hn : ((g.Read p).g.Read q).n = (g.Read p).n := by
      show min q.length g.Content.length = min p.length g.Content.length
      rw [hq]
    refine ⟨hn, rfl, ?_⟩
    have h1 : ((g.Read p).g.Read q).p.take ((g.Read p).g.Read q).n
        = g.Content.take ((g.Read p).g.Read q).n := copy_take q g.Content
    have h2 : (g.Read p).p.take (g.Read p).n = g.Content.take (g.Read p).n :=
      copy_take p g.Content
    rw [h1, h2, hn]
  · intro hempty
    refine ⟨?_, rfl⟩
    show min p.length g.Content.length = 0
    simp [hempty]

/-- Witness of C21: two reads of the content `1 2 3` into buffers of length two,
and a read of an empty content. -/
theorem generatedFile_read_witness :
    (((GeneratedFile.Read ⟨[], [], [], [1, 2, 3]⟩ [9, 9]).g.Read [7, 7]).n
        = (GeneratedFile.Read ⟨[], [], [], [1, 2, 3]⟩ [9, 9]).n ∧
      ((GeneratedFile.Read ⟨[], [], [], [1, 2, 3]⟩ [9, 9]).g.Read [7, 7]).err = none ∧
      ((GeneratedFile.Read ⟨[], [], [], [1, 2, 3]⟩ [9, 9]).g.Read [7, 7]).p.take
          ((GeneratedFile.Read ⟨[], [], [], [1, 2, 3]⟩ [9, 9]).g.Read [7, 7]).n
        = (GeneratedFile.Read ⟨[], [], [], [1, 2, 3]⟩ [9, 9]).p.take
          (GeneratedFile.Read ⟨[], [], [], [1, 2, 3]⟩ [9, 9]).n) ∧
    ((GeneratedFile.Read ⟨[], [], [], []⟩ [9, 9]).n = 0 ∧
      (GeneratedFile.Read ⟨[], [], [], []⟩ [9, 9]).err = none) :=
  ⟨(generatedFile_read ⟨[], [], [], [1, 2, 3]⟩ [9, 9]).2.2.2.2.2.2.1 [7, 7] rfl,
    (generatedFile_read ⟨[], [], [], []⟩ [9, 9]).2.2.2.2.2.2.2 rfl⟩

/-! ## A completed parenthesized name -/

/-- C22. For a partial name without `.` that ends with `)`,
`completeMessageOptionNames` returns no items and no error, whatever the
linked model is: neither the descriptor index nor the extension resolver
takes part in the result. -/
theorem completeMessageOptionNames_completed_paren (path : List Node) (p : Str)
    (linkRes : LinkResult) (hdot : '.' ∉ p) (hsuffix : strings.HasSuffix p [')'] = true) :
    completeMessageOptionNames path p linkRes = .ret [] := by
  unfold completeMessageOptionNames
  simp [split_of_no_sep p '.' hdot, hsuffix]

/-- Witness of C22: `(foo)` on a linked model whose index and resolver fail on
every query. -/
theorem completeMessageOptionNames_completed_paren_witness :
    completeMessageOptionNames [.FileNode, .MessageNode] "(foo)".toList failingLinkRes
      = .ret [] :=
  completeMessageOptionNames_completed_paren [.FileNode, .MessageNode] "(foo)".toList
    failingLinkRes (by decide) (by decide)

/-! ## The stale-state policy of the two branches -/

theorem completeOptionNames_last_node (path path' : List Node) (partialName : Str)
    (linkRes : LinkResult) (h : path.getLast? = path'.getLast?) :
    completeOptionNames path partialName linkRes
      = completeOptionNames path' partialName linkRes := by
  unfold completeOptionNames
  rw [h]
  cases path'.getLast? with
  | none => rfl
  | some node => cases node <;> rfl

/-- C3 (as the code behaves). When the latest contents are not well-formed and a
linked model exists: the search target is the linked result; the descriptor
search `deepPathSearch` is consulted only on the scope path found in the AST of
the linked model; the locator is consulted only on the current tree and on
that AST, with the token of that AST; the option branch hands the scope path
found in the current parse tree to `completeOptionNames` together with the
linked model, and `completeOptionNames` depends on that path only through
its last node. -/
theorem getCompletions_stale_state (env : Env) (c : Cache) (params : CompletionParams)
    (currentParseRes : ParseResult) (linkRes : LinkResult) (posOffset : Int)
    (textPrecedingCursor : Str)
    (hpre : Prelude c params currentParseRes (some linkRes) posOffset textPrecedingCursor
      false) :
    searchTarget false currentParseRes (some linkRes) = some linkRes.toParseResult ∧
    (∀ search : List Node → LinkResult → Except Error (Option Descriptor),
      (∀ path, env.findNarrowestEnclosingScope linkRes.toParseResult
          (linkRes.AST.TokenAtOffset posOffset) params.Position = (path, true) →
        search path linkRes = env.deepPathSearch path linkRes) →
      GetCompletions { env with deepPathSearch := search } c params
        = GetCompletions env c params) ∧
    (∀ locate : ParseResult → Token → Position → List Node × Bool,
      locate currentParseRes (linkRes.AST.TokenAtOffset posOffset) params.Position
        = env.findNarrowestEnclosingScope currentParseRes
            (linkRes.AST.TokenAtOffset posOffset) params.Position →
      locate linkRes.toParseResult (linkRes.AST.TokenAtOffset posOffset) params.Position
        = env.findNarrowestEnclosingScope linkRes.toParseResult
            (linkRes.AST.TokenAtOffset posOffset) params.Position →
      GetCompletions { env with findNarrowestEnclosingScope := locate } c params
        = GetCompletions env c params) ∧
    (∀ partialName path,
      optionPartialName textPrecedingCursor = .ret (some partialName) →
      env.findNarrowestEnclosingScope currentParseRes (linkRes.AST.TokenAtOffset posOffset)
        params.Position = (path, true) →
      GetCompletions env c params
        = (completeOptionNames path partialName linkRes).bind fun optionItems =>
            (literalCompletions env params linkRes.toParseResult (some linkRes)
              (linkRes.AST.TokenAtOffset posOffset)).bind fun literalItems =>
              .ret (optionItems ++ literalItems)) ∧
    (∀ path path' partialName, path.getLast? = path'.getLast? →
      completeOptionNames path partialName linkRes
        = completeOptionNames path' partialName linkRes) := by
  have htarget : searchTarget false currentParseRes (some linkRes)
      = some linkRes.toParseResult := rfl
  refine ⟨htarget, ?_, ?_, ?_, ?_⟩
  · intro search hsearch
    rw [getCompletions_of_prelude _ c params _ _ _ _ _ hpre,
      getCompletions_of_prelude env c params _ _ _ _ _ hpre, htarget]
    have hopt : optionCompletions { env with deepPathSearch := search } params
        currentParseRes (some linkRes) (tokenAtOffset linkRes.toParseResult posOffset)
        textPrecedingCursor
        = optionCompletions env params currentParseRes (some linkRes)
          (tokenAtOffset linkRes.toParseResult posOffset) textPrecedingCursor := rfl
    have hlit : literalCompletions { env with deepPathSearch := search } params
        linkRes.toParseResult (some linkRes) (tokenAtOffset linkRes.toParseResult posOffset)
        = literalCompletions env params linkRes.toParseResult (some linkRes)
          (tokenAtOffset linkRes.toParseResult posOffset) := by
      unfold literalCompletions
      cases hs : env.findNarrowestEnclosingScope linkRes.toParseResult
          (tokenAtOffset linkRes.toParseResult posOffset) params.Position with
      | mk path found =>
        cases found with
        | false => simp only [hs]
        | true =>
          simp only [hs]
          rw [hsearch path hs]
    simp only [hopt, hlit]
  · intro locate hcur hlink
    rw [getCompletions_of_prelude _ c params _ _ _ _ _ hpre,
      getCompletions_of_prelude env c params _ _ _ _ _ hpre, htarget]
    have hopt : optionCompletions { env with findNarrowestEnclosingScope := locate } params
        currentParseRes (some linkRes) (tokenAtOffset linkRes.toParseResult posOffset)
        textPrecedingCursor
        = optionCompletions env params currentParseRes (some linkRes)
          (tokenAtOffset linkRes.toParseResult posOffset) textPrecedingCursor := by
      unfold optionCompletions
      simp only [tokenAtOffset]
      rw [hcur]
    have hlit : literalCompletions { env with findNarrowestEnclosingScope := locate } params
        linkRes.toParseResult (some linkRes) (tokenAtOffset linkRes.toParseResult posOffset)
        = literalCompletions env params linkRes.toParseResult (some linkRes)
          (tokenAtOffset linkRes.toParseResult posOffset) := by
      unfold literalCompletions
      simp only [tokenAtOffset]
      rw [hlink]
    simp only [hopt, hlit]
  · intro partialName path hname hs
    rw [getCompletions_of_prelude env c params _ _ _ _ _ hpre, htarget]
    have hopt : optionCompletions env params currentParseRes (some linkRes)
        (tokenAtOffset linkRes.toParseResult posOffset) textPrecedingCursor
        = completeOptionNames path partialName linkRes := by
      unfold optionCompletions
      simp only [tokenAtOffset, hname, Outcome.bind, hs]
    simp only [hopt]
    rfl
  · intro path path' partialName h
    exact completeOptionNames_last_node path path' partialName linkRes h

/-- Witness of C3 (as the code behaves): with malformed latest contents, a
descriptor search that fails on every path but the one found in the AST of the
linked model gives the same result. -/
theorem getCompletions_stale_state_witness :
    GetCompletions { literalEnv with deepPathSearch := literalOnlySearch }
        (sampleCache (sampleTree 1) (some (sampleLinkRes "pkg".toList)) "  x: 1".toList false)
        (sampleParams 6)
      = GetCompletions literalEnv
        (sampleCache (sampleTree 1) (some (sampleLinkRes "pkg".toList)) "  x: 1".toList false)
        (sampleParams 6) :=
  (getCompletions_stale_state literalEnv
    (sampleCache (sampleTree 1) (some (sampleLinkRes "pkg".toList)) "  x: 1".toList false)
    (sampleParams 6) (sampleTree 1) (sampleLinkRes "pkg".toList) 6 ("  x: 1".toList.take 6)
    (sampleCache_prelude _ _ _ _ 6 (by decide))).2.1 literalOnlySearch
    (fun path hs => by
      have hp : path = [.FileNode, .MessageLiteralNode [⟨"c".toList⟩]] :=
        (congrArg Prod.fst hs).symm
      subst hp
      rfl)

/-! ## The option-statement heuristic inside `GetCompletions` -/

theorem isSpace_iff (c : Char) : strings.isSpace c = true ↔ IsUnicodeSpace c := by
  unfold strings.isSpace IsUnicodeSpace
  simp only [Bool.or_eq_true, Bool.and_eq_true, decide_eq_true_eq, List.mem_cons,
    List.mem_singleton, List.not_mem_nil, or_false]
  tauto

theorem dropWhile_append_of_all (p : Char → Bool) (a b : Str) (h : ∀ c ∈ a, p c = true) :
    (a ++ b).dropWhile p = b.dropWhile p := by
  induction a with
  | nil => rfl
  | cons x a ih =>
    have hx : p x = true := h x (by simp)
    simp only [List.cons_append, List.dropWhile_cons, hx, if_true]
    exact ih (fun c hc => h c (by simp [hc]))

theorem dropWhile_of_head (p : Char → Bool) (l : Str)
    (h : ∀ c, l.head? = some c → p c = false) : l.dropWhile p = l := by
  cases l with
  | nil => rfl
  | cons x l => simp [List.dropWhile_cons, h x rfl]

/-- The value of `strings.TrimSpace`: the text between a leading and a trailing
run of white space, when it neither begins nor ends with white space. -/
theorem trimSpace_spec (ws1 pn ws2 : Str) (h1 : ∀ c ∈ ws1, IsUnicodeSpace c)
    (h2 : ∀ c ∈ ws2, IsUnicodeSpace c)
    (hhead : ∀ c, pn.head? = some c → ¬ IsUnicodeSpace c)
    (hlast : ∀ c, pn.getLast? = some c → ¬ IsUnicodeSpace c) :
    strings.TrimSpace (ws1 ++ pn ++ ws2) = pn := by
  have hs1 : ∀ c ∈ ws1, strings.isSpace c = true := fun c hc => (isSpace_iff c).2 (h1 c hc)
  have hs2 : ∀ c ∈ ws2.reverse, strings.isSpace c = true :=
    fun c hc => (isSpace_iff c).2 (h2 c (List.mem_reverse.1 hc))
  have hfalse : ∀ c, ¬ IsUnicodeSpace c → strings.isSpace c = false := by
    intro c hc
    rw [Bool.eq_false_iff]
    exact fun h => hc ((isSpace_iff c).1 h)
  unfold strings.TrimSpace strings.trimRightFunc
  rw [List.append_assoc, dropWhile_append_of_all _ ws1 _ hs1]
  cases pn with
  | nil =>
    have hall : (([] : Str) ++ ws2).dropWhile strings.isSpace = [] := by
      rw [List.nil_append, List.dropWhile_eq_nil_iff]
      exact fun c hc => (isSpace_iff c).2 (h2 c hc)
    rw [hall]
    rfl
  | cons a l =>
    have hfront : (a :: l ++ ws2).dropWhile strings.isSpace = a :: l ++ ws2 :=
      dropWhile_of_head _ _ (fun c hc => hfalse c (hhead c (by simpa using hc)))
    have hback : ((a :: l).reverse).dropWhile strings.isSpace = (a :: l).reverse :=
      dropWhile_of_head _ _ (fun c hc => hfalse c (hlast c (by
        rw [← List.head?_reverse]
        exact hc)))
    rw [hfront, List.reverse_append, dropWhile_append_of_all _ _ _ hs2, hback,
      List.reverse_reverse]

theorem lastIndex_of_last_occurrence (t pre post : Str)
    (hs : t = pre ++ optionKeyword ++ post)
    (hmax : ∀ pre' post', t = pre' ++ optionKeyword ++ post' → pre'.length ≤ pre.length) :
    strings.LastIndex t optionKeyword = (pre.length : Int) := by
  rcases lastIndex_spec optionKeyword t with ⟨_, hno⟩ | ⟨pre0, post0, hs0, hidx, hmax0⟩
  · exact absurd hs (hno pre post)
  · have h1 := hmax pre0 post0 hs0
    have h2 := hmax0 pre post hs
    rw [hidx]
    congr 1
    omega

theorem last_occurrence_of_lastIndex (t pre : Str)
    (hidx : strings.LastIndex t optionKeyword = (pre.length : Int)) :
    ∀ pre' post', t = pre' ++ optionKeyword ++ post' → pre'.length ≤ pre.length := by
  intro pre' post' hs'
  rcases lastIndex_spec optionKeyword t with ⟨hneg, _⟩ | ⟨pre0, post0, _, hidx0, hmax0⟩
  · rw [hneg] at hidx
    have := Int.natCast_nonneg pre.length
    omega
  · have h := hmax0 pre' post' hs'
    rw [hidx0] at hidx
    have : pre0.length = pre.length := by exact_mod_cast hidx
    omega

theorem completeMessageOptionNames_ret_or_err (path : List Node) (name : Str)
    (linkRes : LinkResult) :
    (∃ items, completeMessageOptionNames path name linkRes = .ret items) ∨
      (∃ e, completeMessageOptionNames path name linkRes = .err e) := by
  by_cases h1 : (strings.Split name '.').length = 1 ∧ strings.HasSuffix name [')'] = false
  · unfold completeMessageOptionNames
    simp only [h1, and_self, if_true, LinkResult.FindDescriptorsByPrefix]
    cases linkRes.descriptorsByPrefix _ with
    | error e => exact Or.inr ⟨e, by simp [Outcome.ofExcept, Outcome.bind]⟩
    | ok ds =>
      simp only [Outcome.ofExcept, Outcome.bind, candidatesLoop_filter, List.nil_append]
      exact Or.inl ⟨_, rfl⟩
  · by_cases h2 : 1 < (strings.Split name '.').length
    · rw [completeMessageOptionNames_of_segments path name linkRes h2]
      have hdrop : (strings.Split name '.').dropLast ≠ [] := by
        intro hnil
        have := congrArg List.length hnil
        simp only [List.length_dropLast, List.length_nil] at this
        omega
      rcases walkOptionsPath_some_or_err linkRes none _ hdrop with ⟨m, hm⟩ | ⟨e, he⟩
      · rw [hm]
        cases hl : (strings.Split name '.').getLast? with
        | none =>
          exact absurd (List.getLast?_eq_none_iff.1 hl) (split_ne_nil name '.')
        | some lastPart =>
          obtain ⟨items, hitems⟩ := filterByLastPart_some m lastPart
          exact Or.inl ⟨items, by simp [Outcome.bind, hitems]⟩
      · rw [he]
        exact Or.inr ⟨e, by simp [Outcome.bind]⟩
    · unfold completeMessageOptionNames
      exact Or.inl ⟨[], by simp [h1, h2]⟩

/-- The option branch in a message declaration scope with a linked model. -/
theorem optionCompletions_of_message_scope (env : Env) (params : CompletionParams)
    (currentParseRes : ParseResult) (linkRes : LinkResult) (tok : Token)
    (textPrecedingCursor : Str) (path : List Node)
    (hscope : env.findNarrowestEnclosingScope currentParseRes tok params.Position
      = (path, true))
    (hlast : path.getLast? = some .MessageNode) :
    optionCompletions env params currentParseRes (some linkRes) tok textPrecedingCursor
      = (optionPartialName textPrecedingCursor).bind fun heuristic =>
          match heuristic with
          | none => .ret []
          | some partialName => completeMessageOptionNames path partialName linkRes := by
  unfold optionCompletions
  simp only [hscope, completeOptionNames, hlast]

/-- C5. The option-statement heuristic of `GetCompletions`, for a request in a
message declaration scope with a linked model. The option branch is entered
exactly when the text from the line start to the cursor contains an occurrence
of `option ` with no `;` after it: without one no option item is appended; with
one, `completeMessageOptionNames` is run on a partial name. That partial name is
the text after the last occurrence with the white space at both ends removed.
A text in which every `option` is followed by `al` does not enter the branch,
and the slices never go out of range. -/
theorem getCompletions_option_heuristic (env : Env) (c : Cache) (params : CompletionParams)
    (currentParseRes : ParseResult) (linkRes : LinkResult) (posOffset : Int)
    (textPrecedingCursor : Str) (latestAstValid : Bool) (target : ParseResult)
    (path : List Node)
    (hpre : Prelude c params currentParseRes (some linkRes) posOffset textPrecedingCursor
      latestAstValid)
    (htarget : searchTarget latestAstValid currentParseRes (some linkRes) = some target)
    (hscope : env.findNarrowestEnclosingScope currentParseRes (tokenAtOffset target posOffset)
      params.Position = (path, true))
    (hlast : path.getLast? = some .MessageNode) :
    ((¬ ∃ pre post, textPrecedingCursor = pre ++ optionKeyword ++ post ∧ ';' ∉ post) →
      GetCompletions env c params
        = (literalCompletions env params target (some linkRes)
            (tokenAtOffset target posOffset)).bind fun literalItems =>
            .ret ([] ++ literalItems)) ∧
    ((∃ pre post, textPrecedingCursor = pre ++ optionKeyword ++ post ∧ ';' ∉ post) →
      ∃ partialName, GetCompletions env c params
        = (completeMessageOptionNames path partialName linkRes).bind fun optionItems =>
            (literalCompletions env params target (some linkRes)
              (tokenAtOffset target posOffset)).bind fun literalItems =>
              .ret (optionItems ++ literalItems)) ∧
    (∀ pre post ws1 partialName ws2,
      textPrecedingCursor = pre ++ optionKeyword ++ post → ';' ∉ post →
      (∀ pre' post', textPrecedingCursor = pre' ++ optionKeyword ++ post' →
        pre'.length ≤ pre.length) →
      post = ws1 ++ partialName ++ ws2 →
      (∀ ch ∈ ws1, IsUnicodeSpace ch) → (∀ ch ∈ ws2, IsUnicodeSpace ch) →
      (∀ ch, partialName.head? = some ch → ¬ IsUnicodeSpace ch) →
      (∀ ch, partialName.getLast? = some ch → ¬ IsUnicodeSpace ch) →
      GetCompletions env c params
        = (completeMessageOptionNames path partialName linkRes).bind fun optionItems =>
            (literalCompletions env params target (some linkRes)
              (tokenAtOffset target posOffset)).bind fun literalItems =>
              .ret (optionItems ++ literalItems)) ∧
    ((∀ pre post, textPrecedingCursor = pre ++ "option".toList ++ post →
        ∃ rest, post = "al".toList ++ rest) →
      GetCompletions env c params
        = (literalCompletions env params target (some linkRes)
            (tokenAtOffset target posOffset)).bind fun literalItems =>
            .ret ([] ++ literalItems)) ∧
    optionCompletions env params currentParseRes (some linkRes)
      (tokenAtOffset target posOffset) textPrecedingCursor ≠ .panic := by
  have hget := getCompletions_of_prelude env c params _ _ _ _ _ hpre
  rw [htarget] at hget
  have hopt := optionCompletions_of_message_scope env params currentParseRes linkRes
    (tokenAtOffset target posOffset) textPrecedingCursor path hscope hlast
  have hspec := optionPartialName_spec textPrecedingCursor
  have hnone : optionPartialName textPrecedingCursor = .ret none →
      GetCompletions env c params
        = (literalCompletions env params target (some linkRes)
            (tokenAtOffset target posOffset)).bind fun literalItems =>
            .ret ([] ++ literalItems) := by
    intro h
    rw [hget]
    simp only [hopt, h, Outcome.bind]
  have hsome : ∀ partialName, optionPartialName textPrecedingCursor
      = .ret (some partialName) →
      GetCompletions env c params
        = (completeMessageOptionNames path partialName linkRes).bind fun optionItems =>
            (literalCompletions env params target (some linkRes)
              (tokenAtOffset target posOffset)).bind fun literalItems =>
              .ret (optionItems ++ literalItems) := by
    intro partialName h
    rw [hget]
    simp only [hopt, h, Outcome.bind]
  refine ⟨?_, ?_, ?_, ?_, ?_⟩
  · intro hno
    obtain ⟨r, hr⟩ := optionPartialName_ret textPrecedingCursor
    cases r with
    | none => exact hnone hr
    | some partialName => exact absurd (hspec.2.1.1 ⟨partialName, hr⟩) hno
  · intro hocc
    obtain ⟨partialName, hp⟩ := hspec.2.1.2 hocc
    exact ⟨partialName, hsome partialName hp⟩
  · intro pre post ws1 partialName ws2 hs hsemi hmax hpost h1 h2 hhead hlast'
    apply hsome
    rw [optionPartialName_of_last_occurrence textPrecedingCursor pre post hs
      (lastIndex_of_last_occurrence textPrecedingCursor pre post hs hmax), if_neg hsemi, hpost,
      trimSpace_spec ws1 partialName ws2 h1 h2 hhead hlast']
  · intro hal
    exact hnone (hspec.2.2.2 hal)
  · rw [hopt]
    obtain ⟨r, hr⟩ := optionPartialName_ret textPrecedingCursor
    rw [hr]
    cases r with
    | none => simp [Outcome.bind]
    | some partialName =>
      rcases completeMessageOptionNames_ret_or_err path partialName linkRes with
        ⟨items, hi⟩ | ⟨e, he⟩
      · simp [Outcome.bind, hi]
      · simp [Outcome.bind, he]

/-- Witness of C5: in the line ` option a; option (ow ` the last occurrence of the
keyword has no `;` after it, and the partial name handed on is `(ow`, without
the trailing blank. -/
theorem getCompletions_option_heuristic_witness :
    GetCompletions optionEnv
        (sampleCache (sampleTree 1) (some extensionLinkRes) " option a; option (ow ".toList true)
        (sampleParams 22)
      = (completeMessageOptionNames [.FileNode, .MessageNode] "(ow".toList
          extensionLinkRes).bind fun optionItems =>
          (literalCompletions optionEnv (sampleParams 22) (sampleTree 1) (some extensionLinkRes)
            (tokenAtOffset (sampleTree 1) 22)).bind fun literalItems =>
            .ret (optionItems ++ literalItems) :=
  (getCompletions_option_heuristic optionEnv
    (sampleCache (sampleTree 1) (some extensionLinkRes) " option a; option (ow ".toList true)
    (sampleParams 22) (sampleTree 1) extensionLinkRes 22
    (" option a; option (ow ".toList.take 22) true (sampleTree 1) [.FileNode, .MessageNode]
    (sampleCache_prelude _ _ _ _ 22 (by decide)) rfl rfl rfl).2.2.1
    " option a; ".toList "(ow ".toList [] "(ow".toList " ".toList (by decide) (by decide)
    (last_occurrence_of_lastIndex _ " option a; ".toList (by decide)) (by decide)
    (by simp) (by simp [IsUnicodeSpace]) (by simp [IsUnicodeSpace]) (by simp [IsUnicodeSpace])

/-! ## The sources of an error of `GetCompletions` -/

theorem optionCompletions_ret_or_source (env : Env) (params : CompletionParams)
    (currentParseRes : ParseResult) (maybeCurrentLinkRes : Option LinkResult) (tok : Token)
    (textPrecedingCursor : Str)
    (hnonempty : ∀ parseRes tk pos path,
      env.findNarrowestEnclosingScope parseRes tk pos = (path, true) → path ≠ []) :
    (∃ items, optionCompletions env params currentParseRes maybeCurrentLinkRes tok
        textPrecedingCursor = .ret items) ∨
    (∃ e partialName linkRes path,
      optionCompletions env params currentParseRes maybeCurrentLinkRes tok
        textPrecedingCursor = .err e ∧
      maybeCurrentLinkRes = some linkRes ∧
      optionPartialName textPrecedingCursor = .ret (some partialName) ∧
      env.findNarrowestEnclosingScope currentParseRes tok params.Position = (path, true) ∧
      path.getLast? = some .MessageNode ∧
      completeMessageOptionNames path partialName linkRes = .err e) := by
  obtain ⟨r, hr⟩ := optionPartialName_ret textPrecedingCursor
  cases r with
  | none => exact Or.inl ⟨[], by simp [optionCompletions, hr, Outcome.bind]⟩
  | some partialName =>
    cases hl : maybeCurrentLinkRes with
    | none => exact Or.inl ⟨[], by simp [optionCompletions, hr, Outcome.bind]⟩
    | some linkRes =>
      cases hs : env.findNarrowestEnclosingScope currentParseRes tok params.Position with
      | mk path found =>
        cases found with
        | false => exact Or.inl ⟨[], by simp [optionCompletions, hr, Outcome.bind, hs]⟩
        | true =>
          have hopt : optionCompletions env params currentParseRes (some linkRes) tok
              textPrecedingCursor = completeOptionNames path partialName linkRes := by
            simp [optionCompletions, hr, Outcome.bind, hs]
          rw [hopt]
          cases hlast : path.getLast? with
          | none =>
            exact absurd (List.getLast?_eq_none_iff.1 hlast)
              (hnonempty currentParseRes tok params.Position path hs)
          | some node =>
            by_cases hnode : node = .MessageNode
            · subst hnode
              have hcall : completeOptionNames path partialName linkRes
                  = completeMessageOptionNames path partialName linkRes := by
                simp [completeOptionNames, hlast]
              rw [hcall]
              rcases completeMessageOptionNames_ret_or_err path partialName linkRes with
                ⟨items, hi⟩ | ⟨e, he⟩
              · exact Or.inl ⟨items, hi⟩
              · exact Or.inr ⟨e, partialName, linkRes, path, he, rfl, hr, rfl, hlast, he⟩
            · refine Or.inl ⟨[], ?_⟩
              unfold completeOptionNames
              rw [hlast]
              cases node <;> first | rfl | exact absurd rfl hnode

theorem literalCompletions_ret_or_source (env : Env) (params : CompletionParams)
    (target : ParseResult) (maybeCurrentLinkRes : Option LinkResult) (tok : Token)
    (hnonempty : ∀ parseRes tk pos path,
      env.findNarrowestEnclosingScope parseRes tk pos = (path, true) → path ≠ []) :
    (∃ items, literalCompletions env params target maybeCurrentLinkRes tok = .ret items) ∨
    (∃ e linkRes path,
      literalCompletions env params target maybeCurrentLinkRes tok = .err e ∧
      maybeCurrentLinkRes = some linkRes ∧
      env.findNarrowestEnclosingScope target tok params.Position = (path, true) ∧
      env.deepPathSearch path linkRes = .error e) := by
  cases hs : env.findNarrowestEnclosingScope target tok params.Position with
  | mk path found =>
    cases found with
    | false => exact Or.inl ⟨[], by simp only [literalCompletions, hs]⟩
    | true =>
      cases hl : maybeCurrentLinkRes with
      | none => exact Or.inl ⟨[], by simp only [literalCompletions, hs]⟩
      | some linkRes =>
        cases hd : env.deepPathSearch path linkRes with
        | error e =>
          exact Or.inr ⟨e, linkRes, path,
            by simp only [literalCompletions, hs, hd, Outcome.ofExcept, Outcome.bind],
            rfl, rfl, hd⟩
        | ok desc =>
          refine Or.inl ?_
          simp only [literalCompletions, hs, hd, Outcome.ofExcept, Outcome.bind]
          cases hlast : path.getLast? with
          | none =>
            exact absurd (List.getLast?_eq_none_iff.1 hlast)
              (hnonempty target tok params.Position path hs)
          | some node =>
            cases desc with
            | none => exact ⟨[], rfl⟩
            | some d =>
              cases d with
              | message m => cases node <;> exact ⟨_, rfl⟩
              | field fd => exact ⟨[], rfl⟩
              | other n => exact ⟨[], rfl⟩

/-- C6 (as the code behaves). For a request whose lookups succeed, that has a
search target, and whose locator reports only non-empty paths: `GetCompletions`
returns a completion list and no error, unless the option branch, entered in
a message declaration scope with the linked model, gets a failure from
`completeMessageOptionNames` on the partial name, or the descriptor search
`deepPathSearch` reports an error on the scope path of the search target; such
a failure is returned as the error of `GetCompletions`. A missing linked
model gives the empty list. -/
theorem getCompletions_error_sources (env : Env) (c : Cache) (params : CompletionParams)
    (currentParseRes : ParseResult) (maybeCurrentLinkRes : Option LinkResult)
    (posOffset : Int) (textPrecedingCursor : Str) (latestAstValid : Bool)
    (target : ParseResult)
    (hpre : Prelude c params currentParseRes maybeCurrentLinkRes posOffset
      textPrecedingCursor latestAstValid)
    (htarget : searchTarget latestAstValid currentParseRes maybeCurrentLinkRes = some target)
    (hnonempty : ∀ parseRes tk pos path,
      env.findNarrowestEnclosingScope parseRes tk pos = (path, true) → path ≠ []) :
    ((∃ items, GetCompletions env c params = .ret items) ∨
      (∃ e partialName linkRes path,
        GetCompletions env c params = .err e ∧
        maybeCurrentLinkRes = some linkRes ∧
        optionPartialName textPrecedingCursor = .ret (some partialName) ∧
        env.findNarrowestEnclosingScope currentParseRes (tokenAtOffset target posOffset)
          params.Position = (path, true) ∧
        path.getLast? = some .MessageNode ∧
        completeMessageOptionNames path partialName linkRes = .err e) ∨
      (∃ e linkRes path,
        GetCompletions env c params = .err e ∧
        maybeCurrentLinkRes = some linkRes ∧
        env.findNarrowestEnclosingScope target (tokenAtOffset target posOffset)
          params.Position = (path, true) ∧
        env.deepPathSearch path linkRes = .error e)) ∧
    (∀ partialName linkRes path e,
      optionPartialName textPrecedingCursor = .ret (some partialName) →
      maybeCurrentLinkRes = some linkRes →
      env.findNarrowestEnclosingScope currentParseRes (tokenAtOffset target posOffset)
        params.Position = (path, true) →
      path.getLast? = some .MessageNode →
      completeMessageOptionNames path partialName linkRes = .err e →
      GetCompletions env c params = .err e) ∧
    (maybeCurrentLinkRes = none → GetCompletions env c params = .ret []) := by
  have hget := getCompletions_of_prelude env c params _ _ _ _ _ hpre
  rw [htarget] at hget
  simp only at hget
  refine ⟨?_, ?_, ?_⟩
  · rcases optionCompletions_ret_or_source env params currentParseRes maybeCurrentLinkRes
        (tokenAtOffset target posOffset) textPrecedingCursor hnonempty with
      ⟨optionItems, ho⟩ | ⟨e, partialName, linkRes, path, ho, hl, hn, hs, hlast, hfail⟩
    · rcases literalCompletions_ret_or_source env params target maybeCurrentLinkRes
          (tokenAtOffset target posOffset) hnonempty with
        ⟨literalItems, hlit⟩ | ⟨e, linkRes, path, hlit, hl, hs, hd⟩
      · exact Or.inl ⟨optionItems ++ literalItems, by
          rw [hget]
          simp only [ho, hlit, Outcome.bind]⟩
      · exact Or.inr (Or.inr ⟨e, linkRes, path, by
          rw [hget]
          simp only [ho, hlit, Outcome.bind], hl, hs, hd⟩)
    · exact Or.inr (Or.inl ⟨e, partialName, linkRes, path, by
        rw [hget]
        simp only [ho, Outcome.bind], hl, hn, hs, hlast, hfail⟩)
  · intro partialName linkRes path e hname hl hs hlast hfail
    subst hl
    rw [hget]
    simp only [optionCompletions, hname, Outcome.bind, hs, completeOptionNames, hlast, hfail]
  · intro hl
    subst hl
    rw [hget]
    obtain ⟨r, hr⟩ := optionPartialName_ret textPrecedingCursor
    have hopt : optionCompletions env params currentParseRes none
        (tokenAtOffset target posOffset) textPrecedingCursor = .ret [] := by
      cases r <;> simp [optionCompletions, hr, Outcome.bind]
    have hlit : literalCompletions env params target none (tokenAtOffset target posOffset)
        = .ret [] := by
      unfold literalCompletions
      split
      · rename_i heq
        simp at heq
      · rfl
    simp [hopt, hlit, Outcome.bind]

/-- Witness of C6 (as the code behaves): for `option (nope).x` in a message
declaration the resolver knows no extension `foo.nope`, and the failure of
`completeMessageOptionNames` is the error returned. -/
theorem getCompletions_error_sources_witness :
    GetCompletions optionEnv
      (sampleCache (sampleTree 1) (some (sampleLinkRes "foo".toList))
        "  option (nope).x".toList true)
      (sampleParams 17) = .err "not found".toList :=
  (getCompletions_error_sources optionEnv
    (sampleCache (sampleTree 1) (some (sampleLinkRes "foo".toList))
      "  option (nope).x".toList true)
    (sampleParams 17) (sampleTree 1) (some (sampleLinkRes "foo".toList)) 17
    ("  option (nope).x".toList.take 17) true (sampleTree 1)
    (sampleCache_prelude _ _ _ _ 17 (by decide)) rfl
    (fun parseRes tk pos path hs => by
      simp only [optionEnv] at hs
      split at hs
      · have hp : path = [.FileNode, .MessageNode] := (congrArg Prod.fst hs).symm
        simp [hp]
      · have hf := congrArg Prod.snd hs
        simp at hf)).2.1
    "(nope).x".toList (sampleLinkRes "foo".toList) [.FileNode, .MessageNode]
    "not found".toList (by decide) rfl rfl rfl (by decide)

/-! ## Extension and map items of the multi-segment branch -/

/-- C14 (the code in the multi-segment branch). After a walk that ends in the
context `ctx`: for a last segment that begins with `(`, an extension of `ctx`
whose name contains that segment is rendered `(n)` with the commit character
`.` when message-typed, and `n = ${0};`, without parentheses, when scalar; for
a plain last segment, a declared field of `ctx` that is a message-typed
extension is rendered `n)`, without the opening parenthesis. -/
theorem completeMessageOptionNames_extension_items (path : List Node) (name : Str)
    (linkRes : LinkResult) (leading : List Str) (last : Str) (ctx : MessageDescriptor)
    (hsplit : strings.Split name '.' = leading ++ [last]) (hleading : leading ≠ [])
    (hwalk : walkOptionsPath linkRes none leading = .ret (some ctx)) :
    ∃ items : List CompletionItem,
      completeMessageOptionNames path name linkRes = .ret items ∧
      (strings.HasPrefix last ['('] = true →
        ∀ ext ∈ ctx.Extensions, strings.Contains ext.name last = true →
          (∀ n fs xs, ext.type = .message (.message n fs xs) →
            ∃ item ∈ items, item.Label = ext.name ∧
              item.InsertText = ['('] ++ ext.name ++ [')'] ∧
              item.CommitCharacters = [['.']]) ∧
          (∀ k, ext.type = .scalar k →
            ∃ item ∈ items, item.Label = ext.name ∧
              item.InsertText = ext.name ++ " = $\x7b0\x7d;".toList ∧
              item.InsertTextFormat = some .SnippetTextFormat)) ∧
      (strings.HasPrefix last ['('] = false →
        ∀ fld ∈ ctx.Fields, fld.IsExtension = true → strings.Contains fld.name last = true →
          ∀ n fs xs, fld.type = .message (.message n fs xs) →
            ∃ item ∈ items, item.Label = fld.name ∧
              item.InsertText = fld.name ++ [')'] ∧
              item.CommitCharacters = [['.']]) := by
  have hres := completeMessageOptionNames_of_leading path name linkRes leading last hsplit
    hleading
  rw [hwalk] at hres
  by_cases hparen : strings.HasPrefix last ['('] = true
  · refine ⟨ctx.Extensions.flatMap (lastPartExtensionItems last), ?_, ?_, ?_⟩
    · rw [hres]
      simp [Outcome.bind, filterByLastPart, hparen]
    · intro _ ext hmem hc
      constructor
      · intro n fs xs ht
        refine ⟨newExtensionFieldCompletionItem ext true, ?_, rfl, rfl, rfl⟩
        rw [List.mem_flatMap]
        exact ⟨ext, hmem, by simp [lastPartExtensionItems, hc, ht]⟩
      · intro k ht
        refine ⟨newNonMessageFieldCompletionItem ext, ?_, rfl, rfl, rfl⟩
        rw [List.mem_flatMap]
        exact ⟨ext, hmem, by simp [lastPartExtensionItems, hc, ht]⟩
    · intro hplain
      rw [hparen] at hplain
      cases hplain
  · have hplain : strings.HasPrefix last ['('] = false := Bool.eq_false_iff.2 hparen
    refine ⟨ctx.Fields.flatMap (lastPartFieldItems last), ?_, ?_, ?_⟩
    · rw [hres]
      simp [Outcome.bind, filterByLastPart, hplain]
    · intro h
      exact absurd h hparen
    · intro _ fld hmem hext hc n fs xs ht
      refine ⟨newExtensionFieldCompletionItem fld false, ?_, rfl, rfl, rfl⟩
      rw [List.mem_flatMap]
      exact ⟨fld, hmem, by simp [lastPartFieldItems, hc, ht, hext]⟩

/-- Witness of C14 (the code in the multi-segment branch): for `(Wrap).Ba` the
last segment was typed without a parenthesis, and the extension `Bar` among the
fields of `foo.Mixed` is rendered `Bar)`. -/
theorem completeMessageOptionNames_extension_items_witness :
    ∃ items : List CompletionItem,
      completeMessageOptionNames [.FileNode, .MessageNode] "(Wrap).Ba".toList wrapLinkRes
        = .ret items ∧
      ∃ item ∈ items, item.Label = "Bar".toList ∧ item.InsertText = "Bar)".toList ∧
        item.CommitCharacters = [['.']] :=
  match completeMessageOptionNames_extension_items [.FileNode, .MessageNode]
      "(Wrap).Ba".toList wrapLinkRes ["(Wrap)".toList] "Ba".toList mixedMessage
      (by decide) (by decide) rfl with
  | ⟨items, hitems, _, hplain⟩ =>
    ⟨items, hitems,
      hplain (by decide) barExtension (by simp [mixedMessage, MessageDescriptor.Fields]) rfl
        (by decide) "foo.Opts".toList _ _ rfl⟩

/-- C16 (as the code behaves). For a map field `n` with key field `k` and value
field `v`: in the multi-segment option mode the item synthesized for it, as a
declared field matched by a plain last segment or as an extension matched by
a last segment that begins with `(`, has the body
`n = {key: ${1:K}, value: ${2:V}};` in snippet format, `K` and `V` being the
type details of `k` and `v`; in the single-segment option mode a map-typed
candidate is rendered like any message-typed field, `n` (or `n)` after a typed
parenthesis) with the commit character `.` and no snippet format;
`fieldCompletion` renders a repeated map field as the list snippet in a text
edit, a singular one with no text edit, and never sets an insertion text. -/
theorem map_field_items (fld : FieldDescriptor) (entryName : Str) (k v : FieldDescriptor)
    (htype : fld.type = .message (.mapEntry entryName k v)) :
    (∀ path name linkRes leading last ctx,
      strings.Split name '.' = leading ++ [last] → leading ≠ [] →
      walkOptionsPath linkRes none leading = .ret (some ctx) →
      strings.Contains fld.name last = true →
      (strings.HasPrefix last ['('] = false ∧ fld ∈ ctx.Fields ∨
        strings.HasPrefix last ['('] = true ∧ fld ∈ ctx.Extensions) →
      ∃ items, completeMessageOptionNames path name linkRes = .ret items ∧
        ∃ item ∈ items, item.Label = fld.name ∧
          item.InsertText = fld.name ++ " = \x7bkey: $\x7b1:".toList ++ fieldTypeDetail k ++
            "\x7d, value: $\x7b2:".toList ++ fieldTypeDetail v ++ "\x7d\x7d;".toList ∧
          item.InsertTextFormat = some .SnippetTextFormat) ∧
    (∀ path p linkRes ds, '.' ∉ p → strings.HasSuffix p [')'] = false →
      linkRes.descriptorsByPrefix (strings.TrimPrefix p ['(']) = .ok ds →
      fld ∈ passingCandidates (strings.HasPrefix p ['(']) ds →
      ∃ items, completeMessageOptionNames path p linkRes = .ret items ∧
        ∃ item ∈ items, item.Label = fld.name ∧
          item.InsertText
            = (if strings.HasPrefix p ['('] = true then fld.name ++ [')'] else fld.name) ∧
          item.CommitCharacters = [['.']] ∧
          item.InsertTextFormat = none) ∧
    (∀ rng, fld.cardinality = .Repeated →
      (fieldCompletion fld rng).TextEdit
        = some ⟨rng, fld.name ++ ": [\n  $\x7b0\x7d\n]".toList⟩ ∧
      (fieldCompletion fld rng).InsertText = []) ∧
    (∀ rng, fld.cardinality ≠ .Repeated →
      (fieldCompletion fld rng).TextEdit = none ∧
      (fieldCompletion fld rng).InsertText = []) := by
  refine ⟨?_, ?_, ?_, ?_⟩
  · intro path name linkRes leading last ctx hsplit hleading hwalk hc hwhere
    have hres := completeMessageOptionNames_of_leading path name linkRes leading last hsplit
      hleading
    rw [hwalk] at hres
    rcases hwhere with ⟨hplain, hmem⟩ | ⟨hparen, hmem⟩
    · refine ⟨ctx.Fields.flatMap (lastPartFieldItems last), ?_,
        newMapFieldCompletionItem fld k v, ?_, rfl, rfl, rfl⟩
      · rw [hres]
        simp [Outcome.bind, filterByLastPart, hplain]
      · rw [List.mem_flatMap]
        exact ⟨fld, hmem, by simp [lastPartFieldItems, hc, htype]⟩
    · refine ⟨ctx.Extensions.flatMap (lastPartExtensionItems last), ?_,
        newMapFieldCompletionItem fld k v, ?_, rfl, rfl, rfl⟩
      · rw [hres]
        simp [Outcome.bind, filterByLastPart, hparen]
      · rw [List.mem_flatMap]
        exact ⟨fld, hmem, by simp [lastPartExtensionItems, hc, htype]⟩
  · intro path p linkRes ds hdot hsuffix hindex hmem
    have hext := ((mem_passingCandidates _ ds fld).1 hmem).2.2
    refine ⟨_, by rw [completeMessageOptionNames_of_single path p linkRes hdot hsuffix, hindex],
      ?_⟩
    by_cases hwant : strings.HasPrefix p ['('] = true
    · rw [hwant] at hext
      refine ⟨newExtensionFieldCompletionItem fld false, ?_, rfl, ?_, rfl, rfl⟩
      · rw [List.mem_flatMap]
        exact ⟨fld, hmem, by simp [candidateItems, htype, hext, hwant]⟩
      · simp [newExtensionFieldCompletionItem, hwant]
    · have hwant' : strings.HasPrefix p ['('] = false := Bool.eq_false_iff.2 hwant
      rw [hwant'] at hext
      refine ⟨newMessageFieldCompletionItem fld, ?_, rfl, ?_, rfl, rfl⟩
      · rw [List.mem_flatMap]
        exact ⟨fld, hmem, by simp [candidateItems, htype, hext, hwant']⟩
      · simp [newMessageFieldCompletionItem, hwant']
  · intro rng hcard
    simp [fieldCompletion, hcard]
  · intro rng hcard
    cases hc : fld.cardinality with
    | Repeated => exact absurd hc hcard
    | Optional => simp [fieldCompletion, hc, htype, MessageDescriptor.IsMapEntry]
    | Required => simp [fieldCompletion, hc, htype, MessageDescriptor.IsMapEntry]

/-- Witness of C16 (as the code behaves): `map<string, string> labels` completed by
`(Holder).la` in the context `foo.Scope`. -/
theorem map_field_items_witness :
    ∃ items, completeMessageOptionNames [.FileNode, .MessageNode] "(Holder).la".toList
        extensionLinkRes = .ret items ∧
      ∃ item ∈ items, item.Label = labelsField.name ∧
        item.InsertText = labelsField.name ++ " = \x7bkey: $\x7b1:".toList ++
          fieldTypeDetail
            (regularField "pkg.M.LabelsEntry".toList "key".toList (.scalar .StringKind)
              .Optional) ++ "\x7d, value: $\x7b2:".toList ++
          fieldTypeDetail
            (regularField "pkg.M.LabelsEntry".toList "value".toList (.scalar .StringKind)
              .Optional) ++ "\x7d\x7d;".toList ∧
        item.InsertTextFormat = some .SnippetTextFormat :=
  (map_field_items labelsField "pkg.M.LabelsEntry".toList
    (regularField "pkg.M.LabelsEntry".toList "key".toList (.scalar .StringKind) .Optional)
    (regularField "pkg.M.LabelsEntry".toList "value".toList (.scalar .StringKind) .Optional)
    rfl).1 [.FileNode, .MessageNode] "(Holder).la".toList extensionLinkRes
    ["(Holder)".toList] "la".toList scopeMessage (by decide) (by decide) rfl (by decide)
    (Or.inl ⟨by decide, by simp [scopeMessage, MessageDescriptor.Fields]⟩)

/-- Counterexample to C16 as stated. For the map field `map<string, string> labels`,
whose key and value have the type detail `string`: `fieldCompletion` gives the
text edit `labels: [...]` and no insertion text, and the single-segment option
mode gives the insertion text `labels` for a map-typed candidate; neither is the
body `labels = {key: ${1:string}, value: ${2:string}};`. -/
theorem map_field_uniform_counterexample :
    labelsField.MapKey.map fieldTypeDetail = some "string".toList ∧
    labelsField.MapValue.map fieldTypeDetail = some "string".toList ∧
    (fieldCompletion labelsField ⟨⟨0, 1⟩, ⟨0, 1⟩⟩).InsertText = [] ∧
    (fieldCompletion labelsField ⟨⟨0, 1⟩, ⟨0, 1⟩⟩).TextEdit
      = some ⟨⟨⟨0, 1⟩, ⟨0, 1⟩⟩, "labels: [\n  $\x7b0\x7d\n]".toList⟩ ∧
    mapOption.MapKey.isSome = true ∧
    completeMessageOptionNames [.FileNode, .MessageNode] "la".toList wrapLinkRes
      = .ret [newMessageFieldCompletionItem mapOption] ∧
    (newMessageFieldCompletionItem mapOption).InsertText = "labels".toList ∧
    "labels: [\n  $\x7b0\x7d\n]".toList
      ≠ "labels = \x7bkey: $\x7b1:string\x7d, value: $\x7b2:string\x7d\x7d;".toList := by
  refine ⟨by decide, by decide, by decide, by decide, by decide, by decide, by decide,
    by decide⟩

end Protols
